import Mathlib

/-!
# EqualScript interpreter (`src/interpreter.js`)

A shallow embedding of the three stages of the interpreter, `lexer`, `parser` and
`Interpreter`, followed by theorems about them.

Conventions of the embedding.

* A JavaScript string is a Lean `String`; character-level work is done on its list of
  characters.  None of the patterns of the program distinguishes a character outside the
  basic plane from the two code units that JavaScript stores for it.
* The regular expressions are embedded as direct matchers, one per alternative, tried in the
  order of the source.
* The parser's cursor `current` is a natural number indexing the token list; reading past
  the end gives `none` (JavaScript `undefined`).
* Exceptions are outcomes; the interpreter's mutable environment and the console are an
  explicit state that survives a thrown error.
-/

namespace EqualScript

/-! ## Character classes of the regular expressions -/

/-- Class `\d`: an ASCII decimal digit. -/
def isDigit (c : Char) : Bool := decide ('0' ≤ c) && decide (c ≤ '9')

/-- Class `[a-zA-Z_]`. -/
def isIdentStart (c : Char) : Bool :=
  (decide ('a' ≤ c) && decide (c ≤ 'z')) || (decide ('A' ≤ c) && decide (c ≤ 'Z')) || c == '_'

/-- Class `\w`, that is `[A-Za-z0-9_]`. -/
def isWord (c : Char) : Bool := isIdentStart c || isDigit c

/-- Class `\s`: the white space and line terminator code points of ECMAScript. -/
def isSpace (c : Char) : Bool :=
  let n := c.toNat
  n == 9 || n == 10 || n == 11 || n == 12 || n == 13 || n == 32 || n == 160 || n == 5760 ||
  (decide (8192 ≤ n) && decide (n ≤ 8202)) || n == 8232 || n == 8233 || n == 8239 ||
  n == 8287 || n == 12288 || n == 65279

/-- Class `[+\-*/()=;\w]`. -/
def isSymbol (c : Char) : Bool :=
  c == '+' || c == '-' || c == '*' || c == '/' || c == '(' || c == ')' || c == '=' ||
  c == ';' || isWord c

/-! ## Lexer -/

/-- Alternative `\d+`: the longest non-empty run of digits. -/
def matchDigits (s : List Char) : Option (List Char × List Char) :=
  if (s.takeWhile isDigit).isEmpty then none
  else some (s.takeWhile isDigit, s.dropWhile isDigit)

/-- A literal alternative such as `let` or `print`. -/
def matchKeyword (kw : List Char) (s : List Char) : Option (List Char × List Char) :=
  if kw.isPrefixOf s then some (kw, s.drop kw.length) else none

/-- Alternative `"[^\"]*"`: a double quote, the longest run without a double quote, and a
closing double quote. -/
def matchQuoted (s : List Char) : Option (List Char × List Char) :=
  match s with
  | '"' :: r =>
    match r.dropWhile (fun c => c != '"') with
    | '"' :: rest => some ('"' :: (r.takeWhile (fun c => c != '"') ++ ['"']), rest)
    | _ => none
  | _ => none

/-- Alternative `[+\-*/()=;\w]+`: the longest non-empty run of symbol characters. -/
def matchSymbols (s : List Char) : Option (List Char × List Char) :=
  if (s.takeWhile isSymbol).isEmpty then none
  else some (s.takeWhile isSymbol, s.dropWhile isSymbol)

/-- The capture group `(\d+|let|print|"[^\"]*"|[+\-*/()=;\w]+)`: the first alternative that
matches wins.  The result is the captured text and the input that follows it. -/
def matchGroup (s : List Char) : Option (List Char × List Char) :=
  (matchDigits s).orElse fun _ =>
  (matchKeyword "let".toList s).orElse fun _ =>
  (matchKeyword "print".toList s).orElse fun _ =>
  (matchQuoted s).orElse fun _ =>
  matchSymbols s

/-- One attempt of the whole pattern `\s*(...)` at the start of `s`.  `\s*` is greedy; giving
back white space cannot help, because no alternative starts with a white space character. -/
def matchAt (s : List Char) : Option (List Char × List Char) :=
  matchGroup (s.dropWhile isSpace)

/-- The loop `while ((match = regex.exec(input)) !== null)` of `lexer` on the input that
remains after `lastIndex`.  `exec` tries the pattern at the current position and, when it does
not match there, at the next one.  `fuel` bounds the number of attempts. -/
def lexFrom : Nat → List Char → List String
  | 0, _ => []
  | fuel + 1, s =>
    match matchAt s with
    | some (tok, rest) => String.mk tok :: lexFrom fuel rest
    | none => if s.isEmpty then [] else lexFrom fuel s.tail

/-- Function `lexer(input)`.  Every attempt either consumes a character or ends the loop, so
`input.length + 1` attempts are enough. -/
def lexer (input : String) : List String :=
  lexFrom (input.length + 1) input.toList

/-! ## Values -/

/-- The JavaScript values the program can hold.

* `number n`: the Number whose value is the integer `n`; such a Number is exact when
  `|n| ≤ 2 ^ 53`.  The sign of zero is not recorded.
* `nan`: the Number `NaN`.
* `untracked`: a Number or string primitive whose content the embedding does not follow
  (a fraction, an infinity, a rounded integer, text rendered by the host).  It is never
  `undefined` and never an object.
* `hostObject key`: the object that `Object.prototype` holds under `key`; under
  `__proto__` that is `Object.prototype` itself. -/
inductive Value where
  | number (n : Int)
  | nan
  | string (s : String)
  | undefined
  | untracked
  | hostObject (key : String)
  deriving DecidableEq, Repr

/-- Largest magnitude up to which every integer is a Number: `2 ^ 53`. -/
def maxExact : Int := 9007199254740992

/-- The Number for an exact integer result `r`: `r` itself when it is representable for sure,
otherwise a rounded Number that is not followed. -/
def ofInt (r : Int) : Value :=
  if -maxExact ≤ r ∧ r ≤ maxExact then Value.number r else Value.untracked

/-- Mathematical value of a string of decimal digits. -/
def decimalValue (s : List Char) : Nat :=
  s.foldl (fun acc c => 10 * acc + (c.toNat - 48)) 0

/-- Removal of leading and trailing white space, as `StringToNumber` does first. -/
def trim (s : List Char) : List Char :=
  ((s.dropWhile isSpace).reverse.dropWhile isSpace).reverse

/-- Optional `ExponentPart`: nothing, or `e`/`E`, an optional sign and digits. -/
def isExponentOpt (s : List Char) : Bool :=
  match s with
  | [] => true
  | c :: r =>
    (c == 'e' || c == 'E') &&
      (match r with
       | '+' :: d => !d.isEmpty && d.all isDigit
       | '-' :: d => !d.isEmpty && d.all isDigit
       | d => !d.isEmpty && d.all isDigit)

/-- Recogniser of `StrUnsignedDecimalLiteral`: `Infinity`, or digits with an optional
fraction and exponent, at least one digit before or after the point. -/
def isUnsignedDecimal (s : List Char) : Bool :=
  s == "Infinity".toList ||
  (match s.dropWhile isDigit with
   | '.' :: r =>
     (!(s.takeWhile isDigit).isEmpty || !(r.takeWhile isDigit).isEmpty) &&
       isExponentOpt (r.dropWhile isDigit)
   | r => !(s.takeWhile isDigit).isEmpty && isExponentOpt r)

/-- Recogniser of `NonDecimalIntegerLiteral`: `0x`, `0o` or `0b` and digits of that base. -/
def isNonDecimalInteger (s : List Char) : Bool :=
  match s with
  | '0' :: p :: d =>
    !d.isEmpty &&
      (((p == 'x' || p == 'X') &&
          d.all (fun c => isDigit c || (decide ('a' ≤ c) && decide (c ≤ 'f')) ||
            (decide ('A' ≤ c) && decide (c ≤ 'F')))) ||
       ((p == 'o' || p == 'O') && d.all (fun c => decide ('0' ≤ c) && decide (c ≤ '7'))) ||
       ((p == 'b' || p == 'B') && d.all (fun c => c == '0' || c == '1')))
  | _ => false

/-- The host conversion `Number(text)` (`StringToNumber`): white space is trimmed, the empty
string is `0`, a decimal integer with an optional sign is its value, any other numeric
literal is a Number that is not followed, and everything else is `NaN`. -/
def stringToNumber (text : List Char) : Value :=
  let t := trim text
  if t.isEmpty then Value.number 0
  else if t.all isDigit then ofInt (decimalValue t)
  else
    match t with
    | '+' :: r =>
      if !r.isEmpty && r.all isDigit then ofInt (decimalValue r)
      else if isUnsignedDecimal r then Value.untracked else Value.nan
    | '-' :: r =>
      if !r.isEmpty && r.all isDigit then ofInt (-(decimalValue r : Int))
      else if isUnsignedDecimal r then Value.untracked else Value.nan
    | _ => if isUnsignedDecimal t || isNonDecimalInteger t then Value.untracked else Value.nan

/-- Host conversion `ToNumber`; the result is `number`, `nan` or `untracked`. -/
def toNumber : Value → Value
  | Value.number n => ofInt n
  | Value.nan => Value.nan
  | Value.string s => stringToNumber s.toList
  | Value.undefined => Value.nan
  | Value.untracked => Value.untracked
  | Value.hostObject _ => Value.nan

/-- Host conversion `ToString` where the text is followed, `none` where it is not. -/
def toText : Value → Option String
  | Value.number n => if -maxExact ≤ n ∧ n ≤ maxExact then some (toString n) else none
  | Value.nan => some "NaN"
  | Value.string s => some s
  | Value.undefined => some "undefined"
  | Value.untracked => none
  | Value.hostObject _ => none

/-- An arithmetic operator on two operands after `ToNumber`: `NaN` is contagious, exact
integers are combined by `f`, anything else is a Number that is not followed. -/
def arith (f : Int → Int → Value) (a b : Value) : Value :=
  match toNumber a, toNumber b with
  | Value.nan, _ => Value.nan
  | _, Value.nan => Value.nan
  | Value.number x, Value.number y => f x y
  | _, _ => Value.untracked

/-- Whether `ToPrimitive` of the value is a string. -/
def isTextual : Value → Bool
  | Value.string _ => true
  | Value.hostObject _ => true
  | _ => false

/-- Expression `left + right`: concatenation when either operand is a string after
`ToPrimitive`, numeric addition otherwise. -/
def jsAdd (a b : Value) : Value :=
  if isTextual a || isTextual b then
    match toText a, toText b with
    | some x, some y => Value.string (x ++ y)
    | _, _ => Value.untracked
  else if a = Value.untracked ∨ b = Value.untracked then Value.untracked
  else arith (fun x y => ofInt (x + y)) a b

/-- Expression `left - right`. -/
def jsSub (a b : Value) : Value := arith (fun x y => ofInt (x - y)) a b

/-- Expression `left * right`. -/
def jsMul (a b : Value) : Value := arith (fun x y => ofInt (x * y)) a b

/-- Expression `left / right`: exact when the divisor is not zero and divides the dividend;
`0 / 0` is `NaN`; an infinity or a fraction is not followed. -/
def jsDiv (a b : Value) : Value :=
  arith (fun x y =>
    if y = 0 then (if x = 0 then Value.nan else Value.untracked)
    else if x % y = 0 then Value.number (x / y) else Value.untracked) a b

/-! ## Syntax trees -/

/-- The objects `{ type: ..., ... }` built by the parser and dispatched on by the evaluator.
`Other` stands for an object whose `type` is none of the five the evaluator knows. -/
inductive Node where
  | Literal (value : Value)
  | Variable (name : String)
  | Assignment (name : String) (value : Node)
  | Print (value : Node)
  | BinaryExpression (operator : String) (left right : Node)
  | Other (type : String)
  deriving DecidableEq, Repr

/-- How a call ends: with a value, with a thrown error, or `beyond` what the embedding
determines (recursion budget used up, host object installed as a prototype). -/
inductive Outcome (ε α : Type) where
  | ok (a : α)
  | error (e : ε)
  | beyond
  deriving DecidableEq, Repr

/-- Sequencing of outcomes: a thrown error or `beyond` ends the computation. -/
def Outcome.bind {ε α β : Type} (x : Outcome ε α) (f : α → Outcome ε β) : Outcome ε β :=
  match x with
  | Outcome.ok a => f a
  | Outcome.error e => Outcome.error e
  | Outcome.beyond => Outcome.beyond

/-! ## Parser -/

/-- Errors thrown while parsing. -/
inductive ParseError where
  /-- Message `Expected '=' after variable name`. -/
  | expectedEquals
  /-- Message `Expected ')'`. -/
  | expectedParen
  /-- Message `Unexpected token: ` followed by the token. -/
  | unexpectedToken (token : String)
  /-- The `TypeError` of `token.startsWith` when `tokens[current]` is `undefined`. -/
  | undefinedToken
  deriving DecidableEq, Repr

/-- Test `token.startsWith('"') && token.endsWith('"')`. -/
def isQuoted (token : String) : Bool :=
  token.toList.head? == some '"' && token.toList.getLast? == some '"'

/-- Call `token.slice(1, -1)`. -/
def sliceInner (token : String) : String :=
  String.mk (token.toList.drop 1).dropLast

/-- Test `/\d+/.test(token)`: the pattern is not anchored, so it asks for a digit somewhere. -/
def hasDigit (token : String) : Bool := token.toList.any isDigit

/-- Test `/[a-zA-Z_]\w*/.test(token)`: not anchored either, so it asks for a letter or an
underscore somewhere. -/
def hasIdentStart (token : String) : Bool := token.toList.any isIdentStart

/-- Test `token === '+' || token === '-' || token === '*' || token === '/'`. -/
def isOperator (token : String) : Bool :=
  token == "+" || token == "-" || token == "*" || token == "/"

/-- Inner function `parseExpression()` of `parser`, with the cursor `current` passed in and
the new cursor returned along with the node.  `fuel` bounds the nesting of calls. -/
def parseExpression (tokens : List String) : Nat → Nat → Outcome ParseError (Node × Nat)
  | 0, _ => Outcome.beyond
  | fuel + 1, current =>
    match tokens[current]? with
    | none => Outcome.error ParseError.undefinedToken
    | some token =>
      if isQuoted token then
        Outcome.ok (Node.Literal (Value.string (sliceInner token)), current + 1)
      else if token = "let" then
        match tokens[current + 1]?, tokens[current + 2]? with
        | some name, some eq =>
          if eq = "=" then
            (parseExpression tokens fuel (current + 3)).bind fun r =>
              Outcome.ok (Node.Assignment name r.1, r.2)
          else Outcome.error ParseError.expectedEquals
        | _, _ => Outcome.error ParseError.expectedEquals
      else if token = "print" then
        (parseExpression tokens fuel (current + 1)).bind fun r =>
          Outcome.ok (Node.Print r.1, r.2)
      else if hasDigit token then
        Outcome.ok (Node.Literal (stringToNumber token.toList), current + 1)
      else if hasIdentStart token then
        Outcome.ok (Node.Variable token, current + 1)
      else if token = "(" then
        (parseExpression tokens fuel (current + 1)).bind fun r =>
          if tokens[r.2]? = some ")" then Outcome.ok (r.1, r.2 + 1)
          else Outcome.error ParseError.expectedParen
      else if isOperator token then
        (parseExpression tokens fuel (current + 1)).bind fun l =>
          (parseExpression tokens fuel l.2).bind fun r =>
            Outcome.ok (Node.BinaryExpression token l.1 r.1, r.2)
      else Outcome.error (ParseError.unexpectedToken token)

/-- The loop `while (current < tokens.length) ast.push(parseExpression())`.  Every call of
`parseExpression` starts with a budget of `tokens.length + 1` nested calls; `fuel` bounds
the number of rounds. -/
def parseLoop (tokens : List String) : Nat → Nat → Outcome ParseError (List Node)
  | 0, _ => Outcome.beyond
  | fuel + 1, current =>
    if current < tokens.length then
      (parseExpression tokens (tokens.length + 1) current).bind fun r =>
        (parseLoop tokens fuel r.2).bind fun rest => Outcome.ok (r.1 :: rest)
    else Outcome.ok []

/-- Function `parser(tokens)`. -/
def parser (tokens : List String) : Outcome ParseError (List Node) :=
  parseLoop tokens (tokens.length + 1) 0

/-! ## Interpreter -/

/-- Errors thrown while evaluating. -/
inductive RuntimeError where
  /-- Message `Variable `, the name, ` is not defined`. -/
  | notDefined (name : String)
  /-- Message `Unknown operator: ` followed by the operator. -/
  | unknownOperator (operator : String)
  /-- Message `Unknown AST node type: ` followed by the type. -/
  | unknownNodeType (type : String)
  deriving DecidableEq, Repr

/-- String-keyed properties that every object literal inherits from `Object.prototype`. -/
def objectPrototypeKeys : List String :=
  ["constructor", "__defineGetter__", "__defineSetter__", "hasOwnProperty",
   "__lookupGetter__", "__lookupSetter__", "isPrototypeOf", "propertyIsEnumerable",
   "toString", "valueOf", "__proto__", "toLocaleString"]

/-- The object `this.environment`: its own properties in insertion order.  Its prototype is
`Object.prototype`, as for every object written `{}`. -/
abbrev Environment := List (String × Value)

/-- Property read `environment[name]`: the own property if there is one, else the property
inherited from `Object.prototype`, else `undefined`. -/
def Environment.get (env : Environment) (name : String) : Value :=
  match env.lookup name with
  | some v => v
  | none => if name ∈ objectPrototypeKeys then Value.hostObject name else Value.undefined

/-- Overwrite the first own property called `name`. -/
def Environment.replace (env : Environment) (name : String) (v : Value) : Environment :=
  match env with
  | [] => []
  | (k, w) :: rest =>
    if k = name then (k, v) :: rest else (k, w) :: Environment.replace rest name v

/-- Property write `environment[name] = v`.  An own property is overwritten.  Otherwise the
inherited setter of `__proto__` runs: it ignores a primitive and `Object.prototype` itself,
and installing any other object as prototype is outside the embedding (`none`).  Every other
name gets a new own property. -/
def Environment.set (env : Environment) (name : String) (v : Value) : Option Environment :=
  if (env.lookup name).isSome then some (Environment.replace env name v)
  else if name = "__proto__" then
    match v with
    | Value.hostObject key => if key = "__proto__" then some env else none
    | _ => some env
  else some (env ++ [(name, v)])

/-- An instance of `class Interpreter`. -/
structure Interpreter where
  environment : Environment
  deriving DecidableEq, Repr

/-- Expression `new Interpreter()`: the constructor sets `this.environment = {}`. -/
def Interpreter.new : Interpreter := { environment := [] }

/-- What a call of a method has done when it ends: how it ended, the interpreter it leaves,
and the values it passed to `console.log`, in order. -/
structure Step where
  result : Outcome RuntimeError Value
  interpreter : Interpreter
  output : List Value
  deriving DecidableEq, Repr

/-- The inner `switch (node.operator)` of `evaluate`. -/
def applyOperator (operator : String) (left right : Value) : Outcome RuntimeError Value :=
  if operator = "+" then Outcome.ok (jsAdd left right)
  else if operator = "-" then Outcome.ok (jsSub left right)
  else if operator = "*" then Outcome.ok (jsMul left right)
  else if operator = "/" then Outcome.ok (jsDiv left right)
  else Outcome.error (RuntimeError.unknownOperator operator)

/-- Method `evaluate(node)`. -/
def Interpreter.evaluate (self : Interpreter) : Node → Step
  | Node.Literal value => { result := Outcome.ok value, interpreter := self, output := [] }
  | Node.Variable name =>
    if self.environment.get name = Value.undefined then
      { result := Outcome.error (RuntimeError.notDefined name), interpreter := self,
        output := [] }
    else { result := Outcome.ok (self.environment.get name), interpreter := self, output := [] }
  | Node.Assignment name value =>
    let s := self.evaluate value
    match s.result with
    | Outcome.ok v =>
      match s.interpreter.environment.set name v with
      | some env =>
        { result := Outcome.ok (env.get name), interpreter := { environment := env },
          output := s.output }
      | none => { s with result := Outcome.beyond }
    | _ => s
  | Node.BinaryExpression operator left right =>
    let l := self.evaluate left
    match l.result with
    | Outcome.ok lv =>
      let r := l.interpreter.evaluate right
      match r.result with
      | Outcome.ok rv =>
        { result := applyOperator operator lv rv, interpreter := r.interpreter,
          output := l.output ++ r.output }
      | _ => { r with output := l.output ++ r.output }
    | _ => l
  | Node.Print value =>
    let s := self.evaluate value
    match s.result with
    | Outcome.ok v => { s with result := Outcome.ok Value.undefined, output := s.output ++ [v] }
    | _ => s
  | Node.Other type =>
    { result := Outcome.error (RuntimeError.unknownNodeType type), interpreter := self,
      output := [] }

/-- Method `run(ast)`: the nodes are evaluated in order and the first error ends the loop. -/
def Interpreter.run (self : Interpreter) : List Node → Step
  | [] => { result := Outcome.ok Value.undefined, interpreter := self, output := [] }
  | node :: rest =>
    let s := self.evaluate node
    match s.result with
    | Outcome.ok _ =>
      let t := s.interpreter.run rest
      { t with output := s.output ++ t.output }
    | _ => s

/-- What running a source text does: the error of the parser, or the step of `run`. -/
inductive Execution where
  | syntaxError (e : ParseError)
  | ran (step : Step)
  | beyond
  deriving DecidableEq, Repr

/-- The body of the callback in `runFile`, from the text `data` that was read:
`lexer`, `parser`, `new Interpreter()` and `run`. -/
def runSource (data : String) : Execution :=
  match parser (lexer data) with
  | Outcome.ok ast => Execution.ran (Interpreter.new.run ast)
  | Outcome.error e => Execution.syntaxError e
  | Outcome.beyond => Execution.beyond

/-! ## Vocabulary of the properties -/

/-- Prefix (Polish) token sequence of a tree: a number literal is its decimal digit string, a
binary node is its operator followed by the tokens of the left and of the right operand. -/
def toks : Node → List String
  | Node.Literal (Value.number n) => [toString n.toNat]
  | Node.BinaryExpression operator left right => operator :: (toks left ++ toks right)
  | _ => []

/-- Trees built from `BinaryExpression` nodes with an operator among `+ - * /` and `Literal`
leaves holding non-negative integers below `2 ^ 53`. -/
def isPrefixTree : Node → Bool
  | Node.Literal (Value.number n) => decide (0 ≤ n) && decide (n < maxExact)
  | Node.BinaryExpression operator left right =>
    isOperator operator && isPrefixTree left && isPrefixTree right
  | _ => false

/-- Trees built from `Literal` leaves holding integers and `BinaryExpression` nodes with
operator `+`, `-` or `*`. -/
def isArithTree : Node → Bool
  | Node.Literal (Value.number _) => true
  | Node.BinaryExpression operator left right =>
    (operator == "+" || operator == "-" || operator == "*") &&
      isArithTree left && isArithTree right
  | _ => false

/-- The integer a tree of `+`, `-` and `*` over integer literals stands for: each operator
applied to the value of the left and the value of the right operand, in that order. -/
def denote : Node → Int
  | Node.Literal (Value.number n) => n
  | Node.BinaryExpression operator left right =>
    if operator = "+" then denote left + denote right
    else if operator = "-" then denote left - denote right
    else if operator = "*" then denote left * denote right
    else 0
  | _ => 0

/-- Every literal and every intermediate result of the tree has absolute value below
`2 ^ 53`. -/
def isBounded : Node → Bool
  | Node.Literal (Value.number n) => decide (-maxExact < n) && decide (n < maxExact)
  | Node.BinaryExpression operator left right =>
    isBounded left && isBounded right &&
      decide (-maxExact < denote (Node.BinaryExpression operator left right)) &&
      decide (denote (Node.BinaryExpression operator left right) < maxExact)
  | _ => false

/-- Identifier shape: a letter or underscore followed by word characters. -/
def isIdentifier (token : String) : Bool :=
  match token.toList with
  | [] => false
  | c :: rest => isIdentStart c && rest.all isWord

/-- The run printed exactly the one value `v` and ended without an error. -/
def printsExactly (e : Execution) (v : Value) : Bool :=
  match e with
  | Execution.ran step => step.result == Outcome.ok Value.undefined && step.output == [v]
  | _ => false

/-- Successful calls of `parseExpression`, branch by branch: `Parses tokens c n c2` says that
a call with the cursor at `c` returns the node `n` and leaves the cursor at `c2`. -/
inductive Parses (tokens : List String) : Nat → Node → Nat → Prop where
  | quoted (c : Nat) (token : String) :
    tokens[c]? = some token → isQuoted token = true →
    Parses tokens c (Node.Literal (Value.string (sliceInner token))) (c + 1)
  | assignment (c : Nat) (name : String) (value : Node) (c2 : Nat) :
    tokens[c]? = some "let" → tokens[c + 1]? = some name → tokens[c + 2]? = some "=" →
    Parses tokens (c + 3) value c2 → Parses tokens c (Node.Assignment name value) c2
  | print (c : Nat) (value : Node) (c2 : Nat) :
    tokens[c]? = some "print" → Parses tokens (c + 1) value c2 →
    Parses tokens c (Node.Print value) c2
  | number (c : Nat) (token : String) :
    tokens[c]? = some token → isQuoted token = false → token ≠ "let" → token ≠ "print" →
    hasDigit token = true →
    Parses tokens c (Node.Literal (stringToNumber token.toList)) (c + 1)
  | ident (c : Nat) (token : String) :
    tokens[c]? = some token → isQuoted token = false → token ≠ "let" → token ≠ "print" →
    hasDigit token = false → hasIdentStart token = true →
    Parses tokens c (Node.Variable token) (c + 1)
  | group (c : Nat) (inner : Node) (c1 : Nat) :
    tokens[c]? = some "(" → Parses tokens (c + 1) inner c1 → tokens[c1]? = some ")" →
    Parses tokens c inner (c1 + 1)
  | binary (c : Nat) (operator : String) (left : Node) (c1 : Nat) (right : Node) (c2 : Nat) :
    tokens[c]? = some operator → isOperator operator = true →
    Parses tokens (c + 1) left c1 → Parses tokens c1 right c2 →
    Parses tokens c (Node.BinaryExpression operator left right) c2

/-- Successful runs of the loop of `parser` from the cursor `c`: the forest it collects. -/
inductive ParsesAll (tokens : List String) : Nat → List Node → Prop where
  | done (c : Nat) : tokens.length ≤ c → ParsesAll tokens c []
  | more (c : Nat) (node : Node) (c2 : Nat) (rest : List Node) :
    c < tokens.length → Parses tokens c node c2 → ParsesAll tokens c2 rest →
    ParsesAll tokens c (node :: rest)

/-- Every node of the tree has one of the five types the evaluator knows, and every binary
node has an operator among `+ - * /`. -/
def isWellFormed : Node → Bool
  | Node.Literal _ => true
  | Node.Variable _ => true
  | Node.Assignment _ value => isWellFormed value
  | Node.Print value => isWellFormed value
  | Node.BinaryExpression operator left right =>
    isOperator operator && isWellFormed left && isWellFormed right
  | Node.Other _ => false

/-- The tree contains an `Assignment` node. -/
def hasAssignment : Node → Bool
  | Node.Assignment _ _ => true
  | Node.Print value => hasAssignment value
  | Node.BinaryExpression _ left right => hasAssignment left || hasAssignment right
  | _ => false

/-- Token shape (a): a non-empty run of decimal digits. -/
def isDigitRun (token : String) : Bool := !token.toList.isEmpty && token.toList.all isDigit

/-- Token shape (d): a double quote, text without a double quote, a double quote. -/
def isQuotedString (token : String) : Bool :=
  isQuoted token && decide (2 ≤ token.toList.length) &&
    (sliceInner token).toList.all (fun c => c != '"')

/-- Token shape (e): a non-empty run of the characters `+ - * / ( ) = ;` and word
characters. -/
def isSymbolRun (token : String) : Bool := !token.toList.isEmpty && token.toList.all isSymbol

/-- The five shapes of a token. -/
def isTokenShape (token : String) : Bool :=
  isDigitRun token || token == "let" || token == "print" || isQuotedString token ||
    isSymbolRun token

/-- The token contains a white space character. -/
def hasSpace (token : String) : Bool := token.toList.any isSpace

/-- The result is one of the two defensive errors of `evaluate`, `Unknown operator` or
`Unknown AST node type`. -/
def isDefensiveError (r : Outcome RuntimeError Value) : Bool :=
  match r with
  | Outcome.error (RuntimeError.unknownOperator _) => true
  | Outcome.error (RuntimeError.unknownNodeType _) => true
  | _ => false

/-- The tree contains an `Assignment` node whose name is `__proto__`. -/
def assignsProto : Node → Bool
  | Node.Assignment name value => name == "__proto__" || assignsProto value
  | Node.Print value => assignsProto value
  | Node.BinaryExpression _ left right => assignsProto left || assignsProto right
  | _ => false

/-! ## Facts about the character classes -/

theorem char_le_iff (a b : Char) : a ≤ b ↔ a.toNat ≤ b.toNat := by
  simp [Char.le_def, UInt32.le_def, Char.toNat]
  rfl

theorem char_eq_iff (a b : Char) : a = b ↔ a.toNat = b.toNat :=
  ⟨fun h => by rw [h], fun h => by
    have := congrArg Char.ofNat h
    simpa [Char.ofNat_toNat] using this⟩

theorem isDigit_iff (c : Char) : isDigit c = true ↔ 48 ≤ c.toNat ∧ c.toNat ≤ 57 := by
  simp [isDigit, char_le_iff]

theorem isIdentStart_iff (c : Char) : isIdentStart c = true ↔
    (97 ≤ c.toNat ∧ c.toNat ≤ 122) ∨ (65 ≤ c.toNat ∧ c.toNat ≤ 90) ∨ c.toNat = 95 := by
  simp [isIdentStart, char_le_iff, char_eq_iff, or_assoc]

theorem isSymbol_iff (c : Char) : isSymbol c = true ↔
    c.toNat = 43 ∨ c.toNat = 45 ∨ c.toNat = 42 ∨ c.toNat = 47 ∨ c.toNat = 40 ∨ c.toNat = 41 ∨
    c.toNat = 61 ∨ c.toNat = 59 ∨ (97 ≤ c.toNat ∧ c.toNat ≤ 122) ∨
    (65 ≤ c.toNat ∧ c.toNat ≤ 90) ∨ c.toNat = 95 ∨ (48 ≤ c.toNat ∧ c.toNat ≤ 57) := by
  simp [isSymbol, isWord, isIdentStart_iff, isDigit_iff, char_eq_iff, or_assoc]

theorem isSpace_iff (c : Char) : isSpace c = true ↔
    c.toNat = 9 ∨ c.toNat = 10 ∨ c.toNat = 11 ∨ c.toNat = 12 ∨ c.toNat = 13 ∨ c.toNat = 32 ∨
    c.toNat = 160 ∨ c.toNat = 5760 ∨ (8192 ≤ c.toNat ∧ c.toNat ≤ 8202) ∨ c.toNat = 8232 ∨
    c.toNat = 8233 ∨ c.toNat = 8239 ∨ c.toNat = 8287 ∨ c.toNat = 12288 ∨ c.toNat = 65279 := by
  simp [isSpace, or_assoc]

theorem isSpace_of_isSymbol {c : Char} (h : isSymbol c = true) : isSpace c = false := by
  rw [← Bool.not_eq_true, isSpace_iff]
  rw [isSymbol_iff] at h
  omega

theorem isSymbol_of_isSpace {c : Char} (h : isSpace c = true) : isSymbol c = false := by
  rw [← Bool.not_eq_true, isSymbol_iff]
  rw [isSpace_iff] at h
  omega

theorem isSymbol_of_isDigit {c : Char} (h : isDigit c = true) : isSymbol c = true := by
  rw [isSymbol_iff]
  rw [isDigit_iff] at h
  omega

theorem isSymbol_of_isIdentStart {c : Char} (h : isIdentStart c = true) :
    isSymbol c = true := by
  rw [isSymbol_iff]
  rw [isIdentStart_iff] at h
  omega

theorem isDigit_of_isIdentStart {c : Char} (h : isIdentStart c = true) :
    isDigit c = false := by
  rw [← Bool.not_eq_true, isDigit_iff]
  rw [isIdentStart_iff] at h
  omega

theorem isDigit_of_isSpace {c : Char} (h : isSpace c = true) : isDigit c = false := by
  rw [← Bool.not_eq_true, isDigit_iff]
  rw [isSpace_iff] at h
  omega

theorem ne_quote_of_isSymbol {c : Char} (h : isSymbol c = true) : c ≠ '"' := by
  intro hc
  subst hc
  revert h
  decide

/-! ## Facts about runs of characters -/

/-- A run of characters that satisfy `p`, followed by input that does not continue the run,
is what `takeWhile p` takes and what `dropWhile p` leaves. -/
theorem run_split {p : Char → Bool} {x rest : List Char} (hx : ∀ c ∈ x, p c = true)
    (hr : ∀ c, rest.head? = some c → p c = false) :
    (x ++ rest).takeWhile p = x ∧ (x ++ rest).dropWhile p = rest := by
  induction x with
  | nil =>
    cases rest with
    | nil => simp
    | cons a r =>
      have ha : p a = false := hr a rfl
      simp [List.takeWhile, List.dropWhile, ha]
  | cons a x ih =>
    have ha : p a = true := hx a (List.mem_cons_self _ _)
    have ih := ih (fun c hc => hx c (List.mem_cons_of_mem _ hc))
    simp [List.takeWhile, List.dropWhile, ha, ih.1, ih.2]

/-- A keyword made of symbol characters that starts `x ++ rest` already starts `x`, when
`rest` does not continue the run of symbol characters. -/
theorem prefix_of_run {kw x rest : List Char} (hkw : ∀ c ∈ kw, isSymbol c = true)
    (hr : ∀ c, rest.head? = some c → isSymbol c = false) (h : kw <+: x ++ rest) :
    kw <+: x := by
  induction kw generalizing x with
  | nil => exact List.nil_prefix
  | cons k kw ih =>
    cases x with
    | nil =>
      exfalso
      cases rest with
      | nil => simp at h
      | cons a r =>
        simp only [List.nil_append, List.cons_prefix_cons] at h
        have h1 := hkw k (List.mem_cons_self _ _)
        have h2 := hr a rfl
        rw [h.1] at h1
        rw [h1] at h2
        exact Bool.noConfusion h2
    | cons a x =>
      simp only [List.cons_append, List.cons_prefix_cons] at h ⊢
      exact ⟨h.1, ih (fun c hc => hkw c (List.mem_cons_of_mem _ hc)) h.2⟩

theorem matchQuoted_of_ne {a : Char} {s : List Char} (h : a ≠ '"') :
    matchQuoted (a :: s) = none := by
  unfold matchQuoted
  split
  · rename_i r heq
    simp only [List.cons.injEq] at heq
    exact absurd heq.1 h
  · rfl

theorem matchAt_symbols (w x rest : List Char) (hw : ∀ c ∈ w, isSpace c = true)
    (hx0 : x ≠ []) (hx : ∀ c ∈ x, isSymbol c = true)
    (hd : ∀ c, x.head? = some c → isDigit c = false)
    (hlet : ¬ "let".toList <+: x) (hprint : ¬ "print".toList <+: x)
    (hr : ∀ c, rest.head? = some c → isSymbol c = false) :
    matchAt (w ++ (x ++ rest)) = some (x, rest) := by
  cases x with
  | nil => exact absurd rfl hx0
  | cons a x =>
    have ha : isSymbol a = true := hx a (List.mem_cons_self _ _)
    have hsp : isSpace a = false := isSpace_of_isSymbol ha
    have hdig : isDigit a = false := hd a rfl
    have h1 : ¬ "let".toList <+: (a :: x) ++ rest :=
      fun h => hlet (prefix_of_run (by decide) hr h)
    have h2 : ¬ "print".toList <+: (a :: x) ++ rest :=
      fun h => hprint (prefix_of_run (by decide) hr h)
    have hrun := run_split hx hr
    unfold matchAt
    rw [List.dropWhile_append_of_pos hw]
    simp only [List.cons_append] at h1 h2 hrun ⊢
    rw [List.dropWhile_cons_of_neg (by simp [hsp])]
    unfold matchGroup matchDigits matchKeyword matchSymbols
    rw [List.takeWhile_cons_of_neg (by simp [hdig]), matchQuoted_of_ne (ne_quote_of_isSymbol ha),
      hrun.1, hrun.2]
    have h1b : "let".toList.isPrefixOf (a :: (x ++ rest)) = false := by
      rw [Bool.eq_false_iff]; intro h; exact h1 (List.isPrefixOf_iff_prefix.mp h)
    have h2b : "print".toList.isPrefixOf (a :: (x ++ rest)) = false := by
      rw [Bool.eq_false_iff]; intro h; exact h2 (List.isPrefixOf_iff_prefix.mp h)
    rw [h1b, h2b]
    rfl

theorem matchAt_digits (w n rest : List Char) (hw : ∀ c ∈ w, isSpace c = true)
    (hn0 : n ≠ []) (hn : ∀ c ∈ n, isDigit c = true)
    (hr : ∀ c, rest.head? = some c → isDigit c = false) :
    matchAt (w ++ (n ++ rest)) = some (n, rest) := by
  cases n with
  | nil => exact absurd rfl hn0
  | cons a n =>
    have ha : isDigit a = true := hn a (List.mem_cons_self _ _)
    have hsp : isSpace a = false := isSpace_of_isSymbol (isSymbol_of_isDigit ha)
    have hrun := run_split hn hr
    unfold matchAt
    rw [List.dropWhile_append_of_pos hw]
    simp only [List.cons_append] at hrun ⊢
    rw [List.dropWhile_cons_of_neg (by simp [hsp])]
    unfold matchGroup matchDigits
    rw [hrun.1, hrun.2]
    rfl

theorem matchAt_let (w rest : List Char) (hw : ∀ c ∈ w, isSpace c = true) :
    matchAt (w ++ ('l' :: 'e' :: 't' :: rest)) = some ("let".toList, rest) := by
  unfold matchAt
  rw [List.dropWhile_append_of_pos hw]
  rw [List.dropWhile_cons_of_neg (by decide)]
  unfold matchGroup matchDigits
  rw [List.takeWhile_cons_of_neg (by decide)]
  simp [matchKeyword, Option.orElse]

theorem matchAt_print (w rest : List Char) (hw : ∀ c ∈ w, isSpace c = true) :
    matchAt (w ++ ('p' :: 'r' :: 'i' :: 'n' :: 't' :: rest)) = some ("print".toList, rest) := by
  unfold matchAt
  rw [List.dropWhile_append_of_pos hw]
  rw [List.dropWhile_cons_of_neg (by decide)]
  unfold matchGroup matchDigits
  rw [List.takeWhile_cons_of_neg (by decide)]
  simp [matchKeyword, Option.orElse]

theorem run_shorter {p : Char → Bool} {s : List Char}
    (h : (s.takeWhile p).isEmpty = false) : (s.dropWhile p).length < s.length := by
  have e := congrArg List.length (List.takeWhile_append_dropWhile p s)
  rw [List.length_append] at e
  have : 0 < (s.takeWhile p).length := by
    cases ht : s.takeWhile p with
    | nil => rw [ht] at h; exact absurd h (by decide)
    | cons a l => simp
  omega

theorem matchKeyword_shorter {kw s tok rest : List Char} (hkw : 0 < kw.length)
    (h : matchKeyword kw s = some (tok, rest)) : rest.length < s.length := by
  unfold matchKeyword at h
  by_cases hp : kw.isPrefixOf s = true
  · rw [if_pos hp] at h
    have hle := (List.isPrefixOf_iff_prefix.mp hp).length_le
    simp only [Option.some.injEq, Prod.mk.injEq] at h
    rw [← h.2, List.length_drop]
    omega
  · rw [if_neg hp] at h
    exact Option.noConfusion h

theorem matchQuoted_shorter {s tok rest : List Char}
    (h : matchQuoted s = some (tok, rest)) : rest.length < s.length := by
  unfold matchQuoted at h
  split at h
  · rename_i r
    split at h
    · rename_i rest2 heq
      have hle := (List.dropWhile_sublist (fun c => c != '"') (l := r)).length_le
      rw [heq] at hle
      simp only [Option.some.injEq, Prod.mk.injEq] at h
      rw [← h.2]
      simp only [List.length_cons] at hle ⊢
      omega
    · exact Option.noConfusion h
  · exact Option.noConfusion h

/-- Every match of the capture group consumes at least one character. -/
theorem matchGroup_shorter {s tok rest : List Char}
    (h : matchGroup s = some (tok, rest)) : rest.length < s.length := by
  unfold matchGroup at h
  cases h1 : matchDigits s with
  | some r1 =>
    rw [h1] at h
    simp only [Option.orElse, Option.some.injEq] at h
    unfold matchDigits at h1
    by_cases he : (s.takeWhile isDigit).isEmpty = true
    · rw [if_pos he] at h1; exact Option.noConfusion h1
    · rw [if_neg he] at h1
      simp only [Option.some.injEq] at h1
      rw [← h1] at h
      simp only [Prod.mk.injEq] at h
      rw [← h.2]
      exact run_shorter (by simpa using he)
  | none =>
    rw [h1] at h
    simp only [Option.orElse] at h
    cases h2 : matchKeyword "let".toList s with
    | some r2 =>
      rw [h2] at h
      simp only [Option.some.injEq] at h
      rw [h] at h2
      exact matchKeyword_shorter (by decide) h2
    | none =>
      rw [h2] at h
      simp only at h
      cases h3 : matchKeyword "print".toList s with
      | some r3 =>
        rw [h3] at h
        simp only [Option.some.injEq] at h
        rw [h] at h3
        exact matchKeyword_shorter (by decide) h3
      | none =>
        rw [h3] at h
        simp only at h
        cases h4 : matchQuoted s with
        | some r4 =>
          rw [h4] at h
          simp only [Option.some.injEq] at h
          rw [h] at h4
          exact matchQuoted_shorter h4
        | none =>
          rw [h4] at h
          simp only at h
          unfold matchSymbols at h
          by_cases he : (s.takeWhile isSymbol).isEmpty = true
          · rw [if_pos he] at h; exact Option.noConfusion h
          · rw [if_neg he] at h
            simp only [Option.some.injEq, Prod.mk.injEq] at h
            rw [← h.2]
            exact run_shorter (by simpa using he)

theorem matchAt_shorter {s tok rest : List Char}
    (h : matchAt s = some (tok, rest)) : rest.length < s.length := by
  unfold matchAt at h
  have h1 := matchGroup_shorter h
  have h2 := (List.dropWhile_sublist isSpace (l := s)).length_le
  omega

/-- The attempts allowed to `lexFrom` do not matter once they exceed the length of the input:
the loop of `lexer` always ends by itself. -/
theorem lexFrom_fuel (fuel : Nat) : ∀ (s : List Char) (fuel2 : Nat),
    s.length < fuel → s.length < fuel2 → lexFrom fuel s = lexFrom fuel2 s := by
  induction fuel with
  | zero => intro s fuel2 h; omega
  | succ fuel ih =>
    intro s fuel2 h h2
    obtain ⟨m, rfl⟩ : ∃ m, fuel2 = m + 1 := ⟨fuel2 - 1, by omega⟩
    rw [lexFrom, lexFrom]
    cases hm : matchAt s with
    | some r =>
      obtain ⟨tok, rest⟩ := r
      have := matchAt_shorter hm
      simp only
      rw [ih rest m (by omega) (by omega)]
    | none =>
      cases s with
      | nil => simp
      | cons a l =>
        simp only [List.isEmpty_cons, Bool.false_eq_true, if_false, List.tail_cons]
        simp only [List.length_cons] at h h2
        exact ih l m (by omega) (by omega)

theorem lexFrom_nil (fuel : Nat) : lexFrom fuel [] = [] := by
  cases fuel <;> rfl

theorem lexFrom_of_matchAt {fuel : Nat} {s tok rest : List Char}
    (h : matchAt s = some (tok, rest)) :
    lexFrom (fuel + 1) s = String.mk tok :: lexFrom fuel rest := by
  rw [lexFrom, h]

/-- C7: a non-empty string made only of the characters `+ - * / ( ) = ;` and word characters
that does not begin with a digit, with `let` or with `print` is lexed as one token, the
string itself. -/
theorem lexer_symbol_run_single_token (s : String) (hne : s.toList ≠ [])
    (hsym : ∀ c ∈ s.toList, isSymbol c = true)
    (hdigit : ∀ c, s.toList.head? = some c → isDigit c = false)
    (hlet : ¬ "let".toList <+: s.toList) (hprint : ¬ "print".toList <+: s.toList) :
    lexer s = [s] := by
  have h := matchAt_symbols [] s.toList [] (by simp) hne hsym hdigit hlet hprint
    (by simp)
  simp only [List.nil_append, List.append_nil] at h
  unfold lexer
  rw [lexFrom_of_matchAt h, lexFrom_nil]
  rfl

theorem lexer_symbol_run_single_token_witness :
    "x=5".toList ≠ [] ∧ lexer "x=5" = ["x=5"] :=
  ⟨by decide, lexer_symbol_run_single_token "x=5" (by decide) (by decide) (by decide)
    (by decide) (by decide)⟩

/-! ## Decimal digit strings -/

theorem digitChar_spec :
    ∀ k, k < 10 → isDigit (Nat.digitChar k) = true ∧ (Nat.digitChar k).toNat - 48 = k := by
  decide

theorem decimalValue_append (l : List Char) (d : Char) :
    decimalValue (l ++ [d]) = 10 * decimalValue l + (d.toNat - 48) := by
  simp [decimalValue, List.foldl_append]

theorem toDigitsCore_spec (fuel : Nat) : ∀ (n : Nat) (ds : List Char), n < fuel →
    ∃ l, Nat.toDigitsCore 10 fuel n ds = l ++ ds ∧ l ≠ [] ∧
      (∀ c ∈ l, isDigit c = true) ∧ decimalValue l = n := by
  induction fuel with
  | zero => intro n ds h; omega
  | succ fuel ih =>
    intro n ds h
    have hd := digitChar_spec (n % 10) (Nat.mod_lt _ (by decide))
    unfold Nat.toDigitsCore
    by_cases h0 : n / 10 = 0
    · refine ⟨[Nat.digitChar (n % 10)], by simp [h0], by simp, ?_, ?_⟩
      · intro c hc
        rw [List.mem_singleton] at hc
        rw [hc]; exact hd.1
      · have := decimalValue_append [] (Nat.digitChar (n % 10))
        simp only [List.nil_append] at this
        rw [this, hd.2]
        simp [decimalValue]
        omega
    · obtain ⟨l, hl, _, hall, hval⟩ := ih (n / 10) (Nat.digitChar (n % 10) :: ds) (by omega)
      refine ⟨l ++ [Nat.digitChar (n % 10)], by simp [h0, hl], by simp, ?_, ?_⟩
      · intro c hc
        rw [List.mem_append, List.mem_singleton] at hc
        rcases hc with hc | hc
        · exact hall c hc
        · rw [hc]; exact hd.1
      · rw [decimalValue_append, hval, hd.2]
        omega

/-- The decimal text of a natural number is a non-empty run of digits with that value. -/
theorem repr_spec (m : Nat) :
    (toString m).toList ≠ [] ∧ (∀ c ∈ (toString m).toList, isDigit c = true) ∧
      decimalValue (toString m).toList = m := by
  obtain ⟨l, hl, hne, hall, hval⟩ := toDigitsCore_spec (m + 1) m [] (by omega)
  have e : (toString m).toList = l := by
    show (Nat.toDigits 10 m) = l
    simpa [Nat.toDigits] using hl
  rw [e]
  exact ⟨hne, hall, hval⟩


/-! ## How the parser classifies a token -/

theorem dropWhile_of_none {p : Char → Bool} {l : List Char} (h : ∀ c ∈ l, p c = false) :
    l.dropWhile p = l := by
  cases l with
  | nil => rfl
  | cons a l => exact List.dropWhile_cons_of_neg (by simp [h a (List.mem_cons_self _ _)])

theorem trim_of_no_space {l : List Char} (h : ∀ c ∈ l, isSpace c = false) : trim l = l := by
  unfold trim
  rw [dropWhile_of_none h, dropWhile_of_none (fun c hc => h c (List.mem_reverse.mp hc)),
    List.reverse_reverse]

/-- A non-empty all-digit token reaches the number branch and converts to its value. -/
theorem digits_token (tok : String) (h0 : tok.toList ≠ [])
    (hd : ∀ c ∈ tok.toList, isDigit c = true) :
    isQuoted tok = false ∧ tok ≠ "let" ∧ tok ≠ "print" ∧ hasDigit tok = true ∧
      stringToNumber tok.toList = ofInt (decimalValue tok.toList) := by
  obtain ⟨a, l, hal⟩ := List.exists_cons_of_ne_nil h0
  have ha : isDigit a = true := hd a (by rw [hal]; exact List.mem_cons_self _ _)
  refine ⟨?_, ?_, ?_, ?_, ?_⟩
  · have : a ≠ '"' := ne_quote_of_isSymbol (isSymbol_of_isDigit ha)
    have hal2 : tok.data = a :: l := hal
    simp [isQuoted, hal2, this]
  · intro h
    have := hd 'l' (by rw [h]; decide)
    revert this; decide
  · intro h
    have := hd 'p' (by rw [h]; decide)
    revert this; decide
  · simp only [hasDigit, List.any_eq_true]
    exact ⟨a, by rw [hal]; exact List.mem_cons_self _ _, ha⟩
  · have hsp : ∀ c ∈ tok.toList, isSpace c = false :=
      fun c hc => isSpace_of_isSymbol (isSymbol_of_isDigit (hd c hc))
    have hall : tok.toList.all isDigit = true := by
      simp only [List.all_eq_true]; exact hd
    have hemp : tok.toList.isEmpty = false := by rw [hal]; rfl
    unfold stringToNumber
    simp only [trim_of_no_space hsp, hemp, hall]
    simp

theorem parseExpression_digits {tokens : List String} {fuel current : Nat} {tok : String}
    (ht : tokens[current]? = some tok) (h0 : tok.toList ≠ [])
    (hd : ∀ c ∈ tok.toList, isDigit c = true) :
    parseExpression tokens (fuel + 1) current =
      Outcome.ok (Node.Literal (ofInt (decimalValue tok.toList)), current + 1) := by
  obtain ⟨h1, h2, h3, h4, h5⟩ := digits_token tok h0 hd
  rw [parseExpression]
  simp only [ht, h1, h2, h3, h4, h5]
  simp


/-- An operator token reaches the operator branch. -/
theorem operator_token (op : String) (h : isOperator op = true) :
    isQuoted op = false ∧ op ≠ "let" ∧ op ≠ "print" ∧ hasDigit op = false ∧
      hasIdentStart op = false ∧ op ≠ "(" := by
  simp only [isOperator, Bool.or_eq_true, beq_iff_eq] at h
  rcases h with ((h | h) | h) | h <;> subst h <;> decide

theorem parseExpression_operator {tokens : List String} {fuel current : Nat} {op : String}
    (ht : tokens[current]? = some op) (hop : isOperator op = true) :
    parseExpression tokens (fuel + 1) current =
      (parseExpression tokens fuel (current + 1)).bind fun l =>
        (parseExpression tokens fuel l.2).bind fun r =>
          Outcome.ok (Node.BinaryExpression op l.1 r.1, r.2) := by
  obtain ⟨h1, h2, h3, h4, h5, h6⟩ := operator_token op hop
  rw [parseExpression]
  simp only [ht, h1, h2, h3, h4, h5, h6, hop]
  simp

theorem getElem?_after (pre : List String) (x : String) (rest : List String) :
    (pre ++ x :: rest)[pre.length]? = some x := by
  rw [List.getElem?_append_right (Nat.le_refl _)]
  simp

theorem ofInt_of_bounded {n : Int} (h1 : -maxExact ≤ n) (h2 : n ≤ maxExact) :
    ofInt n = Value.number n := by
  simp [ofInt, h1, h2]

theorem toks_length_pos (t : Node) (ht : isPrefixTree t = true) : 0 < (toks t).length := by
  cases t with
  | Literal v => cases v <;> simp_all [toks, isPrefixTree]
  | BinaryExpression op l r => simp [toks]
  | _ => simp [isPrefixTree] at ht

/-- Parsing the prefix tokens of a tree, wherever they stand in the token list, gives the
tree back and leaves the cursor right after them. -/
theorem parseExpression_toks (t : Node) (ht : isPrefixTree t = true) :
    ∀ (pre post : List String) (fuel : Nat), (toks t).length ≤ fuel →
      parseExpression (pre ++ (toks t ++ post)) fuel pre.length =
        Outcome.ok (t, pre.length + (toks t).length) := by
  induction t with
  | Literal v =>
    cases v with
    | number n =>
      intro pre post fuel hf
      simp only [isPrefixTree, Bool.and_eq_true, decide_eq_true_eq] at ht
      obtain ⟨m, rfl⟩ : ∃ m, fuel = m + 1 := ⟨fuel - 1, by simp [toks] at hf; omega⟩
      obtain ⟨a, b, c⟩ := repr_spec n.toNat
      have hv : ofInt ((n.toNat : Nat) : Int) = Value.number n := by
        rw [Int.toNat_of_nonneg ht.1]
        exact ofInt_of_bounded (by unfold maxExact; omega) (le_of_lt ht.2)
      simp only [toks, List.singleton_append, List.length_singleton]
      rw [parseExpression_digits (getElem?_after pre _ post) a b, c, hv]
    | _ => simp [isPrefixTree] at ht
  | BinaryExpression op l r ihl ihr =>
    intro pre post fuel hf
    simp only [isPrefixTree, Bool.and_eq_true] at ht
    obtain ⟨⟨hop, hl⟩, hr⟩ := ht
    simp only [toks, List.length_cons, List.length_append] at hf
    obtain ⟨m, rfl⟩ : ∃ m, fuel = m + 1 := ⟨fuel - 1, by omega⟩
    have e1 : pre ++ (toks (Node.BinaryExpression op l r) ++ post) =
        (pre ++ [op]) ++ (toks l ++ (toks r ++ post)) := by simp [toks]
    have e2 : pre ++ (toks (Node.BinaryExpression op l r) ++ post) =
        (pre ++ [op] ++ toks l) ++ (toks r ++ post) := by simp [toks]
    have h0 : (pre ++ (toks (Node.BinaryExpression op l r) ++ post))[pre.length]? = some op := by
      simp only [toks, List.cons_append]
      exact getElem?_after pre op _
    rw [parseExpression_operator h0 hop]
    have hL := ihl hl (pre ++ [op]) (toks r ++ post) m (by omega)
    rw [← e1] at hL
    have hR := ihr hr (pre ++ [op] ++ toks l) post m (by omega)
    rw [← e2] at hR
    simp only [List.length_append, List.length_singleton] at hL hR
    rw [hL]
    simp only [Outcome.bind]
    rw [hR]
    simp only [toks, List.length_cons, List.length_append]
    congr 2
    omega
  | _ => simp [isPrefixTree] at ht

theorem parseLoop_done (tokens : List String) (fuel : Nat) (h : 0 < fuel) :
    parseLoop tokens fuel tokens.length = Outcome.ok [] := by
  obtain ⟨m, rfl⟩ : ∃ m, fuel = m + 1 := ⟨fuel - 1, by omega⟩
  rw [parseLoop]
  simp

/-- C1: the parser turns the prefix token sequence of a tree of binary expressions over
non-negative integer literals below `2 ^ 53` back into the one-element forest holding that
tree. -/
theorem parser_prefix_round_trip (t : Node) (ht : isPrefixTree t = true) :
    parser (toks t) = Outcome.ok [t] := by
  have hpos := toks_length_pos t ht
  have h := parseExpression_toks t ht [] [] ((toks t).length + 1) (by omega)
  simp only [List.nil_append, List.append_nil, List.length_nil, Nat.zero_add] at h
  unfold parser
  rw [parseLoop]
  simp only [hpos, if_true, h, Outcome.bind]
  rw [parseLoop_done _ _ hpos]

theorem parser_prefix_round_trip_witness :
    isPrefixTree (Node.BinaryExpression "+" (Node.Literal (Value.number 1))
        (Node.Literal (Value.number 2))) = true ∧
      parser ["+", "1", "2"] = Outcome.ok [Node.BinaryExpression "+"
        (Node.Literal (Value.number 1)) (Node.Literal (Value.number 2))] :=
  ⟨by decide, parser_prefix_round_trip (Node.BinaryExpression "+"
    (Node.Literal (Value.number 1)) (Node.Literal (Value.number 2))) (by decide)⟩


/-! ## Parser: errors and misclassified tokens -/

/-- C5: a token list that starts with `let` and whose third token is absent or is not
exactly `=` makes the parser throw `Expected '=' after variable name`; no forest is returned,
so a source text with these tokens is never evaluated. -/
theorem parser_let_without_equals (tokens : List String) (h0 : tokens[0]? = some "let")
    (h2 : tokens[2]? ≠ some "=") :
    parser tokens = Outcome.error ParseError.expectedEquals ∧
      ∀ data : String, lexer data = tokens →
        runSource data = Execution.syntaxError ParseError.expectedEquals := by
  have hp : parser tokens = Outcome.error ParseError.expectedEquals := by
    have hlen : 0 < tokens.length := by
      cases tokens with
      | nil => simp at h0
      | cons a l => simp
    unfold parser
    rw [parseLoop]
    simp only [hlen, if_true]
    rw [parseExpression]
    simp only [h0]
    have hq : isQuoted "let" = false := by decide
    simp only [hq, Nat.zero_add]
    cases h1 : tokens[1]? with
    | none => simp [Outcome.bind]
    | some name =>
      cases h3 : tokens[2]? with
      | none => simp [Outcome.bind]
      | some eq =>
        have : eq ≠ "=" := fun h => h2 (by rw [h3, h])
        simp [Outcome.bind, this]
  refine ⟨hp, ?_⟩
  intro data hd
  unfold runSource
  rw [hd, hp]

theorem parser_let_without_equals_witness :
    ["let", "x", "5"][0]? = some "let" ∧ ["let", "x", "5"][2]? ≠ some "=" ∧
      parser ["let", "x", "5"] = Outcome.error ParseError.expectedEquals ∧
      runSource "let x 5" = Execution.syntaxError ParseError.expectedEquals :=
  ⟨by decide, by decide,
    (parser_let_without_equals ["let", "x", "5"] (by decide) (by decide)).1,
    (parser_let_without_equals ["let", "x", "5"] (by decide) (by decide)).2 "let x 5"
      (by decide)⟩

/-- C6, as stated: the lexer does not give the six tokens with `x=` for
`let x = 5 ; print x`. -/
theorem lexer_sample_not_six_tokens :
    lexer "let x = 5 ; print x" ≠ ["let", "x=", "5", ";", "print", "x"] := by
  decide

/-- C6, amended: the lexer gives seven tokens for `let x = 5 ; print x`; the white space
around `=` makes `x` and `=` tokens of their own. -/
theorem lexer_sample_seven_tokens :
    lexer "let x = 5 ; print x" = ["let", "x", "=", "5", ";", "print", "x"] := by
  decide

/-- C8, at the failing inputs: the token `x1`, which the lexer produces from the text `x1`,
is parsed into a number literal holding `NaN`, and the token `-5` into a number literal
holding `-5`, although neither consists of digits only. -/
theorem parser_number_literal_from_non_digit_token :
    lexer "x1" = ["x1"] ∧ parser ["x1"] = Outcome.ok [Node.Literal Value.nan] ∧
      lexer "-5" = ["-5"] ∧ parser ["-5"] = Outcome.ok [Node.Literal (Value.number (-5))] := by
  decide

/-- C9, at the failing input: the token `a+b`, which the lexer produces from the text `a+b`,
is parsed into a variable although it is not identifier-shaped. -/
theorem parser_variable_from_non_identifier_token :
    lexer "a+b" = ["a+b"] ∧ parser ["a+b"] = Outcome.ok [Node.Variable "a+b"] ∧
      isIdentifier "a+b" = false := by
  decide


/-! ## Evaluator: arithmetic -/

theorem toNumber_number {n : Int} (h1 : -maxExact < n) (h2 : n < maxExact) :
    toNumber (Value.number n) = Value.number n :=
  ofInt_of_bounded (le_of_lt h1) (le_of_lt h2)

theorem arith_numbers (f : Int → Int → Value) {a b : Int} (ha1 : -maxExact < a)
    (ha2 : a < maxExact) (hb1 : -maxExact < b) (hb2 : b < maxExact) :
    arith f (Value.number a) (Value.number b) = f a b := by
  unfold arith
  rw [toNumber_number ha1 ha2, toNumber_number hb1 hb2]

theorem denote_bounded (t : Node) (ha : isArithTree t = true) (hb : isBounded t = true) :
    -maxExact < denote t ∧ denote t < maxExact := by
  cases t with
  | Literal v =>
    cases v with
    | number n => simpa [isBounded, denote] using hb
    | _ => simp [isArithTree] at ha
  | BinaryExpression op l r =>
    simp only [isBounded, Bool.and_eq_true, decide_eq_true_eq] at hb
    exact ⟨hb.1.2, hb.2⟩
  | _ => simp [isArithTree] at ha

/-- C2: on a tree of `+`, `-` and `*` over integer literals whose literals and intermediate
results stay below `2 ^ 53` in absolute value, `evaluate` succeeds in every environment,
returns the exact integer the tree stands for, prints nothing and leaves the environment as
it was. -/
theorem evaluate_arithmetic_exact (self : Interpreter) (t : Node)
    (ha : isArithTree t = true) (hb : isBounded t = true) :
    self.evaluate t =
      { result := Outcome.ok (Value.number (denote t)), interpreter := self, output := [] } := by
  induction t with
  | Literal v =>
    cases v with
    | number n => simp [Interpreter.evaluate, denote]
    | _ => simp [isArithTree] at ha
  | BinaryExpression op l r ihl ihr =>
    have hb2 := hb
    simp only [isArithTree, Bool.and_eq_true] at ha
    simp only [isBounded, Bool.and_eq_true, decide_eq_true_eq] at hb
    obtain ⟨⟨hop, hal⟩, har⟩ := ha
    obtain ⟨⟨⟨hbl, hbr⟩, hlo⟩, hhi⟩ := hb
    obtain ⟨l1, l2⟩ := denote_bounded l hal hbl
    obtain ⟨r1, r2⟩ := denote_bounded r har hbr
    simp only [Interpreter.evaluate, ihl hal hbl, ihr har hbr, List.append_nil]
    simp only [Bool.or_eq_true, beq_iff_eq] at hop
    rcases hop with (hop | hop) | hop <;> subst hop
    · have e : denote (Node.BinaryExpression "+" l r) = denote l + denote r := by
        simp [denote]
      rw [e] at hlo hhi ⊢
      simp only [applyOperator, if_true]
      have : jsAdd (Value.number (denote l)) (Value.number (denote r)) =
          Value.number (denote l + denote r) := by
        unfold jsAdd
        simp only [isTextual, Bool.or_self, Bool.false_eq_true, if_false]
        rw [if_neg (by simp), arith_numbers _ l1 l2 r1 r2]
        exact ofInt_of_bounded (le_of_lt hlo) (le_of_lt hhi)
      rw [this]
    · have e : denote (Node.BinaryExpression "-" l r) = denote l - denote r := by
        simp [denote]
      rw [e] at hlo hhi ⊢
      have h1 : ¬ ("-" = "+") := by decide
      simp only [applyOperator, h1, if_false, if_true]
      have : jsSub (Value.number (denote l)) (Value.number (denote r)) =
          Value.number (denote l - denote r) := by
        unfold jsSub
        rw [arith_numbers _ l1 l2 r1 r2]
        exact ofInt_of_bounded (le_of_lt hlo) (le_of_lt hhi)
      rw [this]
    · have e : denote (Node.BinaryExpression "*" l r) = denote l * denote r := by
        simp [denote]
      rw [e] at hlo hhi ⊢
      have h1 : ¬ ("*" = "+") := by decide
      have h2 : ¬ ("*" = "-") := by decide
      simp only [applyOperator, h1, h2, if_false, if_true]
      have : jsMul (Value.number (denote l)) (Value.number (denote r)) =
          Value.number (denote l * denote r) := by
        unfold jsMul
        rw [arith_numbers _ l1 l2 r1 r2]
        exact ofInt_of_bounded (le_of_lt hlo) (le_of_lt hhi)
      rw [this]
  | _ => simp [isArithTree] at ha

theorem evaluate_arithmetic_exact_witness :
    parser ["*", "+", "1", "2", "3"] = Outcome.ok [Node.BinaryExpression "*"
        (Node.BinaryExpression "+" (Node.Literal (Value.number 1))
          (Node.Literal (Value.number 2))) (Node.Literal (Value.number 3))] ∧
      Interpreter.new.evaluate (Node.BinaryExpression "*"
        (Node.BinaryExpression "+" (Node.Literal (Value.number 1))
          (Node.Literal (Value.number 2))) (Node.Literal (Value.number 3))) =
        { result := Outcome.ok (Value.number 9), interpreter := Interpreter.new, output := [] } ∧
      Interpreter.new.evaluate (Node.BinaryExpression "+" (Node.Literal (Value.number 1))
          (Node.Literal (Value.number 2))) =
        { result := Outcome.ok (Value.number 3), interpreter := Interpreter.new, output := [] } :=
  ⟨by decide,
    evaluate_arithmetic_exact Interpreter.new (Node.BinaryExpression "*"
      (Node.BinaryExpression "+" (Node.Literal (Value.number 1))
        (Node.Literal (Value.number 2))) (Node.Literal (Value.number 3))) (by decide)
      (by decide),
    evaluate_arithmetic_exact Interpreter.new (Node.BinaryExpression "+"
      (Node.Literal (Value.number 1)) (Node.Literal (Value.number 2))) (by decide)
      (by decide)⟩


/-! ## Evaluator: variables and assignment -/

/-- A name with no own binding that `Object.prototype` does not define either is reported as
not defined; nothing is printed and the interpreter is left as it was. -/
theorem evaluate_variable_absent (self : Interpreter) (x : String)
    (hown : self.environment.lookup x = none) (hproto : x ∉ objectPrototypeKeys) :
    self.evaluate (Node.Variable x) =
      { result := Outcome.error (RuntimeError.notDefined x), interpreter := self,
        output := [] } := by
  simp [Interpreter.evaluate, Environment.get, hown, hproto]

/-- C4, at the failing input: on a fresh interpreter the name `toString` has no binding, yet
`evaluate` of the variable `toString` does not fail: it returns the function inherited from
`Object.prototype`, so `print toString` runs to the end and prints it.  The instance of the
claim, `print y`, fails and prints nothing. -/
theorem evaluate_unbound_inherited_name :
    Interpreter.new.environment.lookup "toString" = none ∧
      Interpreter.new.evaluate (Node.Variable "toString") =
        { result := Outcome.ok (Value.hostObject "toString"), interpreter := Interpreter.new,
          output := [] } ∧
      runSource "print toString" = Execution.ran
        { result := Outcome.ok Value.undefined, interpreter := Interpreter.new,
          output := [Value.hostObject "toString"] } ∧
      Interpreter.new.run [Node.Print (Node.Variable "y")] =
        { result := Outcome.error (RuntimeError.notDefined "y"), interpreter := Interpreter.new,
          output := [] } := by
  decide

theorem lookup_replace (env : Environment) (x : String) (v : Value)
    (h : (env.lookup x).isSome = true) : (Environment.replace env x v).lookup x = some v := by
  induction env with
  | nil => simp at h
  | cons kv rest ih =>
    obtain ⟨k, w⟩ := kv
    by_cases hk : k = x
    · subst hk
      simp [Environment.replace, List.lookup]
    · have hx : (x == k) = false := by
        rw [beq_eq_false_iff_ne]; exact fun e => hk e.symm
      simp only [List.lookup, hx] at h
      simp only [Environment.replace, hk, if_false, List.lookup, hx]
      exact ih h

theorem lookup_append_new (env : Environment) (x : String) (v : Value)
    (h : env.lookup x = none) : (env ++ [(x, v)]).lookup x = some v := by
  induction env with
  | nil => simp [List.lookup]
  | cons kv rest ih =>
    obtain ⟨k, w⟩ := kv
    by_cases hx : (x == k) = true
    · simp [List.lookup, hx] at h
    · rw [Bool.not_eq_true] at hx
      simp only [List.lookup, hx] at h
      simp only [List.cons_append, List.lookup, hx]
      exact ih h

/-- Writing a property other than `__proto__` succeeds and the property then reads back as
the value written. -/
theorem set_then_get (env : Environment) (x : String) (v : Value) (hx : x ≠ "__proto__") :
    ∃ env2, Environment.set env x v = some env2 ∧ env2.lookup x = some v := by
  unfold Environment.set
  by_cases h : (env.lookup x).isSome = true
  · exact ⟨Environment.replace env x v, by simp [h], lookup_replace env x v h⟩
  · have hn : env.lookup x = none := by
      cases hl : env.lookup x with
      | none => rfl
      | some w => simp [hl] at h
    exact ⟨env ++ [(x, v)], by simp [hn, hx], lookup_append_new env x v hn⟩

/-- C10, as stated: on a fresh interpreter `print 1` evaluates successfully (to `undefined`)
and the assignment of it to `x` succeeds, yet the following `evaluate` of the variable `x`
throws; and the assignment of `5` to `__proto__` returns `Object.prototype`, not `5`. -/
theorem assignment_of_undefined_not_readable :
    (Interpreter.new.evaluate (Node.Print (Node.Literal (Value.number 1)))).result =
        Outcome.ok Value.undefined ∧
      (Interpreter.new.evaluate
        (Node.Assignment "x" (Node.Print (Node.Literal (Value.number 1))))).result =
        Outcome.ok Value.undefined ∧
      ((Interpreter.new.evaluate
        (Node.Assignment "x" (Node.Print (Node.Literal (Value.number 1))))).interpreter.evaluate
          (Node.Variable "x")).result = Outcome.error (RuntimeError.notDefined "x") ∧
      (Interpreter.new.evaluate (Node.Literal (Value.number 5))).result =
        Outcome.ok (Value.number 5) ∧
      (Interpreter.new.evaluate
        (Node.Assignment "__proto__" (Node.Literal (Value.number 5)))).result =
        Outcome.ok (Value.hostObject "__proto__") := by
  decide

/-- A write to a name other than `__proto__` is always carried out. -/
theorem set_isSome (env : Environment) (x : String) (v : Value) (hx : x ≠ "__proto__") :
    Environment.set env x v ≠ none := by
  obtain ⟨env2, hset, _⟩ := set_then_get env x v hx
  rw [hset]
  exact fun h => Option.noConfusion h

/-- The evaluation of a tree without an assignment to `__proto__` never replaces the
prototype of the environment, so the embedding follows it to its end: it returns or
throws. -/
theorem evaluate_determined (e : Node) (hp : assignsProto e = false) :
    ∀ self : Interpreter, (self.evaluate e).result ≠ Outcome.beyond := by
  induction e with
  | Literal v => intro self h; exact Outcome.noConfusion h
  | Variable name =>
    intro self
    simp only [Interpreter.evaluate]
    split_ifs <;> exact fun h => Outcome.noConfusion h
  | Assignment name value ih =>
    intro self
    simp only [assignsProto, Bool.or_eq_false_iff, beq_eq_false_iff_ne] at hp
    have h1 := ih hp.2 self
    simp only [Interpreter.evaluate]
    cases hr : (self.evaluate value).result with
    | ok v =>
      simp only
      cases hs : (self.evaluate value).interpreter.environment.set name v with
      | none => exact absurd hs (set_isSome _ name v hp.1)
      | some env => exact fun h => Outcome.noConfusion h
    | error err => simp only; rw [hr]; exact fun h => Outcome.noConfusion h
    | beyond => exact absurd hr h1
  | Print value ih =>
    intro self
    simp only [assignsProto] at hp
    have h1 := ih hp self
    simp only [Interpreter.evaluate]
    cases hr : (self.evaluate value).result with
    | ok v => exact fun h => Outcome.noConfusion h
    | error err => simp only; rw [hr]; exact fun h => Outcome.noConfusion h
    | beyond => exact absurd hr h1
  | BinaryExpression op l r ihl ihr =>
    intro self
    simp only [assignsProto, Bool.or_eq_false_iff] at hp
    have h1 := ihl hp.1 self
    have h2 := ihr hp.2 (self.evaluate l).interpreter
    simp only [Interpreter.evaluate]
    cases hlr : (self.evaluate l).result with
    | ok lv =>
      simp only
      cases hrr : ((self.evaluate l).interpreter.evaluate r).result with
      | ok rv =>
        simp only
        unfold applyOperator
        split_ifs <;> exact fun h => Outcome.noConfusion h
      | error err => exact fun h => Outcome.noConfusion h
      | beyond => exact absurd hrr h2
    | error err => simp only; rw [hlr]; exact fun h => Outcome.noConfusion h
    | beyond => exact absurd hlr h1
  | Other ty => intro self h; exact Outcome.noConfusion h

/-- C10, amended: take an interpreter whose environment has `Object.prototype` as its
prototype, a name `x` other than `__proto__` and an expression `e` that contains no
assignment to `__proto__`.  The evaluation of `e` then leaves that prototype in place and is
followed to its end.  When it succeeds with a value `v` other than `undefined`, `evaluate` of
the assignment of `e` to `x` succeeds, returns `v`, prints what `e` printed, and leaves `x`
bound to `v`, so that an immediately following `evaluate` of the variable `x` succeeds,
returns `v` and changes nothing. -/
theorem assignment_stores_and_returns (self : Interpreter) (x : String) (e : Node)
    (hx : x ≠ "__proto__") (hp : assignsProto e = false) :
    (self.evaluate e).result ≠ Outcome.beyond ∧
      (self.evaluate (Node.Assignment x e)).result ≠ Outcome.beyond ∧
      ∀ v : Value, (self.evaluate e).result = Outcome.ok v → v ≠ Value.undefined →
        (self.evaluate (Node.Assignment x e)).result = Outcome.ok v ∧
        (self.evaluate (Node.Assignment x e)).output = (self.evaluate e).output ∧
        (self.evaluate (Node.Assignment x e)).interpreter.environment.lookup x = some v ∧
        (self.evaluate (Node.Assignment x e)).interpreter.evaluate (Node.Variable x) =
          { result := Outcome.ok v,
            interpreter := (self.evaluate (Node.Assignment x e)).interpreter,
            output := [] } := by
  have hpa : assignsProto (Node.Assignment x e) = false := by
    simp only [assignsProto, Bool.or_eq_false_iff, beq_eq_false_iff_ne]
    exact ⟨hx, hp⟩
  refine ⟨evaluate_determined e hp self, evaluate_determined _ hpa self, ?_⟩
  intro v he hv
  obtain ⟨env2, hset, hget⟩ := set_then_get (self.evaluate e).interpreter.environment x v hx
  have hstep : self.evaluate (Node.Assignment x e) =
      { result := Outcome.ok v, interpreter := { environment := env2 },
        output := (self.evaluate e).output } := by
    simp [Interpreter.evaluate, he, hset, Environment.get, hget]
  rw [hstep]
  refine ⟨rfl, rfl, hget, ?_⟩
  simp [Interpreter.evaluate, Environment.get, hget, hv]

theorem assignment_stores_and_returns_witness :
    "x" ≠ "__proto__" ∧ assignsProto (Node.Literal (Value.number 10)) = false ∧
      (Interpreter.new.evaluate (Node.Literal (Value.number 10))).result =
        Outcome.ok (Value.number 10) ∧
      (Interpreter.new.evaluate
        (Node.Assignment "x" (Node.Literal (Value.number 10)))).result =
        Outcome.ok (Value.number 10) :=
  ⟨by decide, by decide, by decide,
    ((assignment_stores_and_returns Interpreter.new "x" (Node.Literal (Value.number 10))
      (by decide) (by decide)).2.2 (Value.number 10) (by decide) (by decide)).1⟩

/-! ## End to end: `let` followed by `print` -/

/-- A token made of letters and underscores only, which does not begin with a keyword,
reaches the variable branch of the parser. -/
theorem plain_identifier_token (x : String) (hx0 : x.toList ≠ [])
    (hx : ∀ c ∈ x.toList, isIdentStart c = true)
    (hlet : ¬ "let".toList <+: x.toList) (hprint : ¬ "print".toList <+: x.toList) :
    isQuoted x = false ∧ x ≠ "let" ∧ x ≠ "print" ∧ hasDigit x = false ∧
      hasIdentStart x = true := by
  obtain ⟨a, l, hal⟩ := List.exists_cons_of_ne_nil hx0
  have ha : isIdentStart a = true := hx a (by rw [hal]; exact List.mem_cons_self _ _)
  refine ⟨?_, ?_, ?_, ?_, ?_⟩
  · have : a ≠ '"' := ne_quote_of_isSymbol (isSymbol_of_isIdentStart ha)
    have hal2 : x.data = a :: l := hal
    simp [isQuoted, hal2, this]
  · intro h
    exact hlet (h ▸ List.prefix_refl _)
  · intro h
    exact hprint (h ▸ List.prefix_refl _)
  · rw [← Bool.not_eq_true]
    simp only [hasDigit, List.any_eq_true, not_exists, not_and, Bool.not_eq_true]
    exact fun c hc => isDigit_of_isIdentStart (hx c hc)
  · simp only [hasIdentStart, List.any_eq_true]
    exact ⟨a, by rw [hal]; exact List.mem_cons_self _ _, ha⟩

/-- The lexer on the text `let x = n`, white space, `print x`. -/
theorem lexFrom_let_print (fuel : Nat) (hf : 6 ≤ fuel) (x n ws : List Char)
    (hx0 : x ≠ []) (hx : ∀ c ∈ x, isIdentStart c = true)
    (hlet : ¬ "let".toList <+: x) (hprint : ¬ "print".toList <+: x)
    (hn0 : n ≠ []) (hn : ∀ c ∈ n, isDigit c = true)
    (hws0 : ws ≠ []) (hws : ∀ c ∈ ws, isSpace c = true) :
    lexFrom fuel ('l' :: 'e' :: 't' :: ' ' :: (x ++ (' ' :: '=' :: ' ' :: (n ++ (ws ++
        ('p' :: 'r' :: 'i' :: 'n' :: 't' :: ' ' :: x)))))) =
      ["let", String.mk x, "=", String.mk n, "print", String.mk x] := by
  obtain ⟨m, rfl⟩ : ∃ m, fuel = m + 6 := ⟨fuel - 6, by omega⟩
  have hsym : ∀ c ∈ x, isSymbol c = true := fun c hc => isSymbol_of_isIdentStart (hx c hc)
  have hdig : ∀ c, x.head? = some c → isDigit c = false := by
    intro c hc
    exact isDigit_of_isIdentStart (hx c (List.mem_of_mem_head? hc))
  have hsp : ∀ c ∈ [' '], isSpace c = true := by decide
  have hrest : ∀ (r : List Char) (c : Char), (' ' :: r).head? = some c → isSymbol c = false := by
    intro r c hc
    simp only [List.head?_cons, Option.some.injEq] at hc
    subst hc
    decide
  have h1 := matchAt_let []
    (' ' :: (x ++ (' ' :: '=' :: ' ' :: (n ++ (ws ++
        ('p' :: 'r' :: 'i' :: 'n' :: 't' :: ' ' :: x)))))) (by simp)
  have h2 := matchAt_symbols [' '] x
    (' ' :: '=' :: ' ' :: (n ++ (ws ++ ('p' :: 'r' :: 'i' :: 'n' :: 't' :: ' ' :: x))))
    hsp hx0 hsym hdig hlet hprint (hrest _)
  have h3 := matchAt_symbols [' '] ['=']
    (' ' :: (n ++ (ws ++ ('p' :: 'r' :: 'i' :: 'n' :: 't' :: ' ' :: x))))
    hsp (by decide) (by decide) (by decide) (by decide) (by decide) (hrest _)
  have h4 := matchAt_digits [' '] n
    (ws ++ ('p' :: 'r' :: 'i' :: 'n' :: 't' :: ' ' :: x)) hsp hn0 hn (by
      intro c hc
      obtain ⟨a, l, hal⟩ := List.exists_cons_of_ne_nil hws0
      rw [hal] at hc
      simp only [List.cons_append, List.head?_cons, Option.some.injEq] at hc
      subst hc
      exact isDigit_of_isSpace (hws a (by rw [hal]; exact List.mem_cons_self _ _)))
  have h5 := matchAt_print ws (' ' :: x) hws
  have h6 := matchAt_symbols [' '] x []
    hsp hx0 hsym hdig hlet hprint (by simp)
  simp only [List.nil_append, List.singleton_append, List.cons_append, List.append_nil]
    at h1 h2 h3 h4 h5 h6
  rw [lexFrom_of_matchAt h1, lexFrom_of_matchAt h2, lexFrom_of_matchAt h3,
    lexFrom_of_matchAt h4, lexFrom_of_matchAt h5, lexFrom_of_matchAt h6, lexFrom_nil]
  rfl

/-- The parser on the six tokens of `let x = n print x`. -/
theorem parser_let_print (x n : String) (hx0 : x.toList ≠ [])
    (hx : ∀ c ∈ x.toList, isIdentStart c = true)
    (hlet : ¬ "let".toList <+: x.toList) (hprint : ¬ "print".toList <+: x.toList)
    (hn0 : n.toList ≠ []) (hn : ∀ c ∈ n.toList, isDigit c = true) :
    parser ["let", x, "=", n, "print", x] =
      Outcome.ok [Node.Assignment x (Node.Literal (ofInt (decimalValue n.toList))),
        Node.Print (Node.Variable x)] := by
  obtain ⟨i1, i2, i3, i4, i5⟩ := plain_identifier_token x hx0 hx hlet hprint
  have q1 : isQuoted "let" = false := by decide
  have q2 : isQuoted "print" = false := by decide
  have q3 : ¬ ("print" = "let") := by decide
  have d := @parseExpression_digits ["let", x, "=", n, "print", x] 5 3 n (by simp) hn0 hn
  have v : parseExpression ["let", x, "=", n, "print", x] 6 5 =
      Outcome.ok (Node.Variable x, 6) := by
    rw [parseExpression]
    simp [i1, i2, i3, i4, i5]
  have a : parseExpression ["let", x, "=", n, "print", x] 7 0 =
      Outcome.ok (Node.Assignment x (Node.Literal (ofInt (decimalValue n.toList))), 4) := by
    rw [parseExpression]
    simp [q1, d, Outcome.bind]
  have p : parseExpression ["let", x, "=", n, "print", x] 7 4 =
      Outcome.ok (Node.Print (Node.Variable x), 6) := by
    rw [parseExpression]
    simp [q2, q3, v, Outcome.bind]
  unfold parser
  simp only [List.length_cons, List.length_nil, Nat.zero_add, Nat.reduceAdd]
  rw [parseLoop]
  simp only [List.length_cons, List.length_nil, Nat.zero_add, Nat.reduceAdd, a, Outcome.bind]
  rw [parseLoop]
  simp only [List.length_cons, List.length_nil, Nat.zero_add, Nat.reduceAdd, p, Outcome.bind]
  rw [parseLoop]
  simp


/-- C3, as stated: three identifiers other than the keywords for which `let x = 10`, a space
and `print x` does not print `10`.  With `x1` the run prints `NaN`; with `letter` the parser
throws; with `__proto__` the run prints `Object.prototype`. -/
theorem let_print_counterexamples :
    (isIdentifier "x1" = true ∧
      printsExactly (runSource "let x1 = 10 print x1") (Value.number 10) = false ∧
      runSource "let x1 = 10 print x1" = Execution.ran
        { result := Outcome.ok Value.undefined,
          interpreter := { environment := [("x1", Value.number 10)] },
          output := [Value.nan] }) ∧
    (isIdentifier "letter" = true ∧
      printsExactly (runSource "let letter = 10 print letter") (Value.number 10) = false ∧
      runSource "let letter = 10 print letter" =
        Execution.syntaxError ParseError.expectedEquals) ∧
    (isIdentifier "__proto__" = true ∧
      printsExactly (runSource "let __proto__ = 10 print __proto__") (Value.number 10) = false ∧
      runSource "let __proto__ = 10 print __proto__" = Execution.ran
        { result := Outcome.ok Value.undefined, interpreter := Interpreter.new,
          output := [Value.hostObject "__proto__"] }) := by
  decide

/-- C3, amended: for every identifier `x` made of letters and underscores only that does not
begin with `let` or `print` and is not `__proto__`, every non-empty decimal digit string `n`
with value below `2 ^ 53` and every non-empty run of white space `ws`, running the text
`let x = n`, `ws`, `print x` through `lexer`, `parser` and `run` on a fresh interpreter ends
without an error, binds `x` to the value of `n` and prints exactly that one value. -/
theorem run_let_print_prints_value (x n ws : String) (hx0 : x.toList ≠ [])
    (hx : ∀ c ∈ x.toList, isIdentStart c = true)
    (hlet : ¬ "let".toList <+: x.toList) (hprint : ¬ "print".toList <+: x.toList)
    (hproto : x ≠ "__proto__")
    (hn0 : n.toList ≠ []) (hn : ∀ c ∈ n.toList, isDigit c = true)
    (hval : decimalValue n.toList < 2 ^ 53)
    (hws0 : ws.toList ≠ []) (hws : ∀ c ∈ ws.toList, isSpace c = true) :
    runSource ("let " ++ x ++ " = " ++ n ++ ws ++ "print " ++ x) = Execution.ran
      { result := Outcome.ok Value.undefined,
        interpreter := { environment := [(x, Value.number (decimalValue n.toList))] },
        output := [Value.number (decimalValue n.toList)] } := by
  have hlex : lexer ("let " ++ x ++ " = " ++ n ++ ws ++ "print " ++ x) =
      ["let", x, "=", n, "print", x] := by
    unfold lexer
    have e : ("let " ++ x ++ " = " ++ n ++ ws ++ "print " ++ x).toList =
        'l' :: 'e' :: 't' :: ' ' :: (x.toList ++ (' ' :: '=' :: ' ' :: (n.toList ++
          (ws.toList ++ ('p' :: 'r' :: 'i' :: 'n' :: 't' :: ' ' :: x.toList))))) := by
      simp [String.toList]
    have hlen : 6 ≤ ("let " ++ x ++ " = " ++ n ++ ws ++ "print " ++ x).length + 1 := by
      show 6 ≤ ("let " ++ x ++ " = " ++ n ++ ws ++ "print " ++ x).toList.length + 1
      rw [e]
      simp only [List.length_cons, List.length_append]
      omega
    rw [e]
    exact lexFrom_let_print _ hlen x.toList n.toList ws.toList
      hx0 hx hlet hprint hn0 hn hws0 hws
  have hv : ofInt ((decimalValue n.toList : Nat) : Int) =
      Value.number (decimalValue n.toList) :=
    ofInt_of_bounded (by unfold maxExact; omega) (by unfold maxExact; omega)
  unfold runSource
  rw [hlex, parser_let_print x n hx0 hx hlet hprint hn0 hn, hv]
  simp [Interpreter.run, Interpreter.evaluate, Interpreter.new, Environment.set,
    Environment.get, List.lookup, hproto]

theorem run_let_print_prints_value_witness :
    "x".toList ≠ [] ∧ "10".toList ≠ [] ∧ decimalValue "10".toList < 2 ^ 53 ∧
      runSource ("let " ++ "x" ++ " = " ++ "10" ++ "\n" ++ "print " ++ "x") = Execution.ran
        { result := Outcome.ok Value.undefined,
          interpreter := { environment := [("x", Value.number (decimalValue "10".toList))] },
          output := [Value.number (decimalValue "10".toList)] } :=
  ⟨by decide, by decide, by decide,
    run_let_print_prints_value "x" "10" "\n" (by decide) (by decide) (by decide) (by decide) (by decide)
      (by decide) (by decide) (by decide) (by decide) (by decide)⟩

/-! ## The parser as a relation -/

theorem bind_eq_ok {ε α β : Type} {x : Outcome ε α} {f : α → Outcome ε β} {b : β}
    (h : x.bind f = Outcome.ok b) : ∃ a, x = Outcome.ok a ∧ f a = Outcome.ok b := by
  cases x with
  | ok a => exact ⟨a, rfl, h⟩
  | error e => exact Outcome.noConfusion h
  | beyond => exact Outcome.noConfusion h

/-- Every successful call of `parseExpression` is described by `Parses`. -/
theorem parses_of_parseExpression (tokens : List String) (fuel : Nat) :
    ∀ (c : Nat) (n : Node) (c2 : Nat),
      parseExpression tokens fuel c = Outcome.ok (n, c2) → Parses tokens c n c2 := by
  induction fuel with
  | zero =>
    intro c n c2 h
    rw [parseExpression] at h
    exact Outcome.noConfusion h
  | succ fuel ih =>
    intro c n c2 h
    rw [parseExpression] at h
    cases ht : tokens[c]? with
    | none => rw [ht] at h; exact Outcome.noConfusion h
    | some token =>
      rw [ht] at h
      simp only at h
      by_cases hq : isQuoted token = true
      · rw [if_pos hq] at h
        simp only [Outcome.ok.injEq, Prod.mk.injEq] at h
        rw [← h.1, ← h.2]
        exact Parses.quoted c token ht hq
      · rw [if_neg hq] at h
        rw [Bool.not_eq_true] at hq
        by_cases hl : token = "let"
        · rw [if_pos hl] at h
          subst hl
          cases h1 : tokens[c + 1]? with
          | none => rw [h1] at h; exact Outcome.noConfusion h
          | some name =>
            cases h2 : tokens[c + 2]? with
            | none => rw [h1, h2] at h; exact Outcome.noConfusion h
            | some eq =>
              rw [h1, h2] at h
              simp only at h
              by_cases he : eq = "="
              · rw [if_pos he] at h
                subst he
                obtain ⟨r, hr, hk⟩ := bind_eq_ok h
                simp only [Outcome.ok.injEq, Prod.mk.injEq] at hk
                rw [← hk.1, ← hk.2]
                exact Parses.assignment c name r.1 r.2 ht h1 h2 (ih _ _ _ hr)
              · rw [if_neg he] at h
                exact Outcome.noConfusion h
        · rw [if_neg hl] at h
          by_cases hp : token = "print"
          · rw [if_pos hp] at h
            subst hp
            obtain ⟨r, hr, hk⟩ := bind_eq_ok h
            simp only [Outcome.ok.injEq, Prod.mk.injEq] at hk
            rw [← hk.1, ← hk.2]
            exact Parses.print c r.1 r.2 ht (ih _ _ _ hr)
          · rw [if_neg hp] at h
            by_cases hd : hasDigit token = true
            · rw [if_pos hd] at h
              simp only [Outcome.ok.injEq, Prod.mk.injEq] at h
              rw [← h.1, ← h.2]
              exact Parses.number c token ht hq hl hp hd
            · rw [if_neg hd] at h
              rw [Bool.not_eq_true] at hd
              by_cases hi : hasIdentStart token = true
              · rw [if_pos hi] at h
                simp only [Outcome.ok.injEq, Prod.mk.injEq] at h
                rw [← h.1, ← h.2]
                exact Parses.ident c token ht hq hl hp hd hi
              · rw [if_neg hi] at h
                by_cases hg : token = "("
                · rw [if_pos hg] at h
                  subst hg
                  obtain ⟨r, hr, hk⟩ := bind_eq_ok h
                  by_cases hc : tokens[r.2]? = some ")"
                  · rw [if_pos hc] at hk
                    simp only [Outcome.ok.injEq, Prod.mk.injEq] at hk
                    rw [← hk.1, ← hk.2]
                    exact Parses.group c r.1 r.2 ht (ih _ _ _ hr) hc
                  · rw [if_neg hc] at hk
                    exact Outcome.noConfusion hk
                · rw [if_neg hg] at h
                  by_cases ho : isOperator token = true
                  · rw [if_pos ho] at h
                    obtain ⟨l, hl2, hk⟩ := bind_eq_ok h
                    obtain ⟨r, hr, hk2⟩ := bind_eq_ok hk
                    simp only [Outcome.ok.injEq, Prod.mk.injEq] at hk2
                    rw [← hk2.1, ← hk2.2]
                    exact Parses.binary c token l.1 l.2 r.1 r.2 ht ho (ih _ _ _ hl2)
                      (ih _ _ _ hr)
                  · rw [if_neg ho] at h
                    exact Outcome.noConfusion h

theorem lt_length_of_getElem? {tokens : List String} {c : Nat} {t : String}
    (h : tokens[c]? = some t) : c < tokens.length := by
  by_contra hc
  rw [List.getElem?_eq_none (by omega)] at h
  exact Option.noConfusion h

/-- A successful call advances the cursor by at least one token and leaves it within the
token list. -/
theorem Parses.bounds {tokens : List String} {c : Nat} {n : Node} {c2 : Nat}
    (h : Parses tokens c n c2) : c < c2 ∧ c2 ≤ tokens.length := by
  induction h with
  | quoted c token ht _ => exact ⟨by omega, lt_length_of_getElem? ht⟩
  | assignment c name value c2 _ _ _ _ ih => exact ⟨by omega, ih.2⟩
  | print c value c2 _ _ ih => exact ⟨by omega, ih.2⟩
  | number c token ht _ _ _ _ => exact ⟨by omega, lt_length_of_getElem? ht⟩
  | ident c token ht _ _ _ _ _ => exact ⟨by omega, lt_length_of_getElem? ht⟩
  | group c inner c1 _ _ hc ih => exact ⟨by omega, lt_length_of_getElem? hc⟩
  | binary c operator left c1 right c2 _ _ _ _ ih1 ih2 => exact ⟨by omega, ih2.2⟩

/-- A call described by `Parses` succeeds with that result whenever its budget of nested
calls covers the tokens from the cursor to the end. -/
theorem parseExpression_of_parses {tokens : List String} {c : Nat} {n : Node} {c2 : Nat}
    (h : Parses tokens c n c2) :
    ∀ fuel, tokens.length + 1 ≤ fuel + c → parseExpression tokens fuel c = Outcome.ok (n, c2) := by
  induction h with
  | quoted c token ht hq =>
    intro fuel hf
    have := lt_length_of_getElem? ht
    obtain ⟨m, rfl⟩ : ∃ m, fuel = m + 1 := ⟨fuel - 1, by omega⟩
    rw [parseExpression]
    simp only [ht, hq, if_true]
  | assignment c name value c2 ht h1 h2 _ ih =>
    intro fuel hf
    have := lt_length_of_getElem? ht
    obtain ⟨m, rfl⟩ : ∃ m, fuel = m + 1 := ⟨fuel - 1, by omega⟩
    have hq : isQuoted "let" = false := by decide
    rw [parseExpression]
    simp only [ht, hq, h1, h2, if_true, Bool.false_eq_true, if_false, ih m (by omega),
      Outcome.bind]
  | print c value c2 ht _ ih =>
    intro fuel hf
    have := lt_length_of_getElem? ht
    obtain ⟨m, rfl⟩ : ∃ m, fuel = m + 1 := ⟨fuel - 1, by omega⟩
    have hq : isQuoted "print" = false := by decide
    have hl : ¬ ("print" = "let") := by decide
    rw [parseExpression]
    simp only [ht, hq, hl, if_true, Bool.false_eq_true, if_false, ih m (by omega), Outcome.bind]
  | number c token ht hq hl hp hd =>
    intro fuel hf
    have := lt_length_of_getElem? ht
    obtain ⟨m, rfl⟩ : ∃ m, fuel = m + 1 := ⟨fuel - 1, by omega⟩
    rw [parseExpression]
    simp only [ht, hq, hl, hp, hd, if_true, Bool.false_eq_true, if_false]
  | ident c token ht hq hl hp hd hi =>
    intro fuel hf
    have := lt_length_of_getElem? ht
    obtain ⟨m, rfl⟩ : ∃ m, fuel = m + 1 := ⟨fuel - 1, by omega⟩
    rw [parseExpression]
    simp only [ht, hq, hl, hp, hd, hi, if_true, Bool.false_eq_true, if_false]
  | group c inner c1 ht _ hc ih =>
    intro fuel hf
    have := lt_length_of_getElem? ht
    obtain ⟨m, rfl⟩ : ∃ m, fuel = m + 1 := ⟨fuel - 1, by omega⟩
    have hq : isQuoted "(" = false := by decide
    have hl : ¬ ("(" = "let") := by decide
    have hp : ¬ ("(" = "print") := by decide
    have hd : hasDigit "(" = false := by decide
    have hi : hasIdentStart "(" = false := by decide
    rw [parseExpression]
    simp only [ht, hq, hl, hp, hd, hi, hc, if_true, Bool.false_eq_true, if_false,
      ih m (by omega), Outcome.bind]
  | binary c operator left c1 right c2 ht ho hl2 _ ih1 ih2 =>
    intro fuel hf
    have := lt_length_of_getElem? ht
    have hb := hl2.bounds
    obtain ⟨m, rfl⟩ : ∃ m, fuel = m + 1 := ⟨fuel - 1, by omega⟩
    rw [parseExpression_operator ht ho, ih1 m (by omega)]
    simp only [Outcome.bind]
    rw [ih2 m (by omega)]

theorem getElem?_shift {pre tokens post : List String} {c : Nat} {t : String}
    (h : tokens[c]? = some t) : (pre ++ (tokens ++ post))[pre.length + c]? = some t := by
  have hc := lt_length_of_getElem? h
  rw [List.getElem?_append_right (by omega)]
  rw [show pre.length + c - pre.length = c by omega]
  rw [List.getElem?_append_left hc]
  exact h

/-- A successful call reads only the tokens of its own list: with tokens added before and
after, the same call, shifted, returns the same node. -/
theorem Parses.shift {tokens : List String} {c : Nat} {n : Node} {c2 : Nat}
    (h : Parses tokens c n c2) (pre post : List String) :
    Parses (pre ++ (tokens ++ post)) (pre.length + c) n (pre.length + c2) := by
  induction h with
  | quoted c token ht hq => exact Parses.quoted _ token (getElem?_shift ht) hq
  | assignment c name value c2 ht h1 h2 _ ih =>
    exact Parses.assignment _ name value _ (getElem?_shift ht) (getElem?_shift h1)
      (getElem?_shift h2) ih
  | print c value c2 ht _ ih => exact Parses.print _ value _ (getElem?_shift ht) ih
  | number c token ht hq hl hp hd =>
    exact Parses.number _ token (getElem?_shift ht) hq hl hp hd
  | ident c token ht hq hl hp hd hi =>
    exact Parses.ident _ token (getElem?_shift ht) hq hl hp hd hi
  | group c inner c1 ht _ hc ih =>
    exact Parses.group _ inner _ (getElem?_shift ht) ih (getElem?_shift hc)
  | binary c operator left c1 right c2 ht ho _ _ ih1 ih2 =>
    exact Parses.binary _ operator left _ right _ (getElem?_shift ht) ho ih1 ih2

/-- Every successful run of the loop of `parser` is described by `ParsesAll`. -/
theorem parsesAll_of_parseLoop (tokens : List String) (fuel : Nat) :
    ∀ (c : Nat) (ns : List Node),
      parseLoop tokens fuel c = Outcome.ok ns → ParsesAll tokens c ns := by
  induction fuel with
  | zero =>
    intro c ns h
    rw [parseLoop] at h
    exact Outcome.noConfusion h
  | succ fuel ih =>
    intro c ns h
    rw [parseLoop] at h
    by_cases hc : c < tokens.length
    · rw [if_pos hc] at h
      obtain ⟨r, hr, hk⟩ := bind_eq_ok h
      obtain ⟨rest, hrest, hk2⟩ := bind_eq_ok hk
      simp only [Outcome.ok.injEq] at hk2
      rw [← hk2]
      exact ParsesAll.more c r.1 r.2 rest hc (parses_of_parseExpression _ _ _ _ _ hr)
        (ih _ _ hrest)
    · rw [if_neg hc] at h
      simp only [Outcome.ok.injEq] at h
      rw [← h]
      exact ParsesAll.done c (by omega)

/-- A run described by `ParsesAll` succeeds with that forest whenever the rounds allowed
cover the tokens from the cursor to the end. -/
theorem parseLoop_of_parsesAll {tokens : List String} {c : Nat} {ns : List Node}
    (h : ParsesAll tokens c ns) :
    ∀ fuel, 0 < fuel → tokens.length + 1 ≤ fuel + c →
      parseLoop tokens fuel c = Outcome.ok ns := by
  induction h with
  | done c hc =>
    intro fuel h0 _
    obtain ⟨m, rfl⟩ : ∃ m, fuel = m + 1 := ⟨fuel - 1, by omega⟩
    rw [parseLoop, if_neg (by omega)]
  | more c node c2 rest hc hp _ ih =>
    intro fuel h0 hf
    have hb := hp.bounds
    obtain ⟨m, rfl⟩ : ∃ m, fuel = m + 1 := ⟨fuel - 1, by omega⟩
    rw [parseLoop, if_pos hc, parseExpression_of_parses hp _ (by omega)]
    simp only [Outcome.bind]
    rw [ih m (by omega) (by omega)]

/-- The parser returns a forest exactly when `ParsesAll` from the first token describes it. -/
theorem parser_ok_iff (tokens : List String) (ns : List Node) :
    parser tokens = Outcome.ok ns ↔ ParsesAll tokens 0 ns :=
  ⟨fun h => parsesAll_of_parseLoop _ _ _ _ h,
    fun h => parseLoop_of_parsesAll h _ (by omega) (by omega)⟩

theorem ParsesAll.cursor_le {tokens : List String} {c : Nat} {ns : List Node}
    (h : ParsesAll tokens c ns) (hc : c ≤ tokens.length) :
    ns.length + c ≤ tokens.length := by
  induction h with
  | done c h0 => simp; omega
  | more c node c2 rest h0 hp _ ih =>
    have hb := hp.bounds
    have := ih hb.2
    simp only [List.length_cons]
    omega

theorem ParsesAll.shift_all {tokens : List String} {c : Nat} {ns : List Node}
    (h : ParsesAll tokens c ns) (pre : List String) :
    ParsesAll (pre ++ tokens) (pre.length + c) ns := by
  induction h with
  | done c hc => exact ParsesAll.done _ (by rw [List.length_append]; omega)
  | more c node c2 rest hc hp _ ih =>
    have hs := hp.shift pre []
    rw [List.append_nil] at hs
    exact ParsesAll.more _ node _ rest (by rw [List.length_append]; omega) hs ih

theorem ParsesAll.append {A : List String} {c : Nat} {ns : List Node}
    (h : ParsesAll A c ns) (hc : c ≤ A.length) (B : List String) (bs : List Node)
    (hB : ParsesAll B 0 bs) : ParsesAll (A ++ B) c (ns ++ bs) := by
  induction h with
  | done c h0 =>
    have e : c = A.length + 0 := by omega
    rw [e]
    exact hB.shift_all A
  | more c node c2 rest h0 hp _ ih =>
    have hs := hp.shift [] B
    simp only [List.nil_append, List.length_nil, Nat.zero_add] at hs
    exact ParsesAll.more _ node _ (rest ++ bs) (by rw [List.length_append]; omega) hs
      (ih hp.bounds.2)

/-- The tokens from the end of the returned expression on play no part in a successful
call: they can be replaced by any others. -/
theorem Parses.replace_rest {tokens : List String} {c : Nat} {n : Node} {c2 : Nat}
    (h : Parses tokens c n c2) :
    ∀ post : List String, Parses (tokens.take c2 ++ post) c n c2 := by
  have key : ∀ {i c3 : Nat} {t : String} (post : List String), tokens[i]? = some t → i < c3 →
      (tokens.take c3 ++ post)[i]? = some t := by
    intro i c3 t post hi hlt
    have hl := lt_length_of_getElem? hi
    rw [List.getElem?_append_left (by rw [List.length_take]; omega),
      List.getElem?_take_of_lt hlt]
    exact hi
  have split : ∀ (a b : Nat) (post : List String), a ≤ b →
      tokens.take b ++ post = tokens.take a ++ ((tokens.take b).drop a ++ post) := by
    intro a b post hab
    rw [← List.append_assoc]
    congr 1
    have := List.take_append_drop a (tokens.take b)
    rw [List.take_take, Nat.min_eq_left hab] at this
    exact this.symm
  induction h with
  | quoted c token ht hq => exact fun post => Parses.quoted _ token (key post ht (by omega)) hq
  | assignment c name value c2 ht h1 h2 hv ih =>
    intro post
    have hb := hv.bounds
    exact Parses.assignment _ name value _ (key post ht (by omega)) (key post h1 (by omega))
      (key post h2 (by omega)) (ih post)
  | print c value c2 ht hv ih =>
    intro post
    have hb := hv.bounds
    exact Parses.print _ value _ (key post ht (by omega)) (ih post)
  | number c token ht hq hl hp hd =>
    exact fun post => Parses.number _ token (key post ht (by omega)) hq hl hp hd
  | ident c token ht hq hl hp hd hi =>
    exact fun post => Parses.ident _ token (key post ht (by omega)) hq hl hp hd hi
  | group c inner c1 ht hv hc ih =>
    intro post
    have hb := hv.bounds
    have hi := ih ((tokens.take (c1 + 1)).drop c1 ++ post)
    rw [← split c1 (c1 + 1) post (by omega)] at hi
    exact Parses.group _ inner _ (key post ht (by omega)) hi (key post hc (by omega))
  | binary c operator left c1 right c2 ht ho hl2 hr ih1 ih2 =>
    intro post
    have hb1 := hl2.bounds
    have hb2 := hr.bounds
    have hi := ih1 ((tokens.take c2).drop c1 ++ post)
    rw [← split c1 c2 post (by omega)] at hi
    exact Parses.binary _ operator left _ right _ (key post ht (by omega)) ho hi (ih2 post)

theorem bind_ne_beyond {ε α β : Type} {x : Outcome ε α} {f : α → Outcome ε β}
    (hx : x ≠ Outcome.beyond) (hf : ∀ a, x = Outcome.ok a → f a ≠ Outcome.beyond) :
    x.bind f ≠ Outcome.beyond := by
  cases x with
  | ok a => exact hf a rfl
  | error e => intro h; exact Outcome.noConfusion h
  | beyond => exact absurd rfl hx

/-- With a budget that covers the tokens from the cursor to the end, `parseExpression` ends
by itself: it returns or throws. -/
theorem parseExpression_ne_beyond (tokens : List String) (fuel : Nat) :
    ∀ c, 0 < fuel → tokens.length + 1 ≤ fuel + c →
      parseExpression tokens fuel c ≠ Outcome.beyond := by
  induction fuel with
  | zero => intro c h; omega
  | succ m ih =>
    intro c _ hf
    rw [parseExpression]
    cases ht : tokens[c]? with
    | none => simp
    | some token =>
      have hc := lt_length_of_getElem? ht
      have next : ∀ c3, c < c3 → parseExpression tokens m c3 ≠ Outcome.beyond :=
        fun c3 h3 => ih c3 (by omega) (by omega)
      simp only
      split_ifs
      · simp
      · split
        · split_ifs
          · exact bind_ne_beyond (next _ (by omega)) (fun a _ => by simp)
          · simp
        · simp
      · exact bind_ne_beyond (next _ (by omega)) (fun a _ => by simp)
      · simp
      · simp
      · refine bind_ne_beyond (next _ (by omega)) (fun a _ => ?_)
        split_ifs <;> simp
      · refine bind_ne_beyond (next _ (by omega)) (fun a ha => ?_)
        have hb := (parses_of_parseExpression _ _ _ _ _ ha).bounds
        exact bind_ne_beyond (next _ (by omega)) (fun b _ => by simp)
      · simp

/-- With rounds that cover the tokens from the cursor to the end, the loop of `parser` ends by
itself. -/
theorem parseLoop_ne_beyond (tokens : List String) (fuel : Nat) :
    ∀ c, 0 < fuel → tokens.length + 1 ≤ fuel + c →
      parseLoop tokens fuel c ≠ Outcome.beyond := by
  induction fuel with
  | zero => intro c h; omega
  | succ m ih =>
    intro c _ hf
    rw [parseLoop]
    split_ifs with hc
    · refine bind_ne_beyond (parseExpression_ne_beyond _ _ _ (by omega) (by omega))
        (fun a ha => ?_)
      have hb := (parses_of_parseExpression _ _ _ _ _ ha).bounds
      exact bind_ne_beyond (ih _ (by omega) (by omega)) (fun b _ => by simp)
    · simp

/-! ## Parser: structure of successful parses -/

/-- C11: when the parser turns a token list into exactly one node, it turns the same list
between `(` and `)` into the same one-node forest; the parentheses leave no node. -/
theorem parser_parentheses_transparent (L : List String) (e : Node)
    (h : parser L = Outcome.ok [e]) :
    parser (["("] ++ L ++ [")"]) = Outcome.ok [e] := by
  rw [parser_ok_iff] at h ⊢
  cases h with
  | more _ _ c2 _ h0 hp hrest =>
    cases hrest with
    | done _ hc =>
      have hb := hp.bounds
      have e2 : c2 = L.length := by omega
      subst e2
      have hs := hp.shift ["("] [")"]
      have e3 : ["("] ++ L ++ [")"] = ["("] ++ (L ++ [")"]) := by simp
      rw [e3]
      have hclose : (["("] ++ (L ++ [")"]))[["("].length + L.length]? = some ")" := by
        have h1 := getElem?_after (["("] ++ L) ")" []
        have e4 : (["("] ++ L).length = ["("].length + L.length := List.length_append _ _
        rw [e4, List.append_assoc] at h1
        exact h1
      have hg := Parses.group 0 e _ (by simp) hs hclose
      exact ParsesAll.more 0 e _ [] (by simp) hg
        (ParsesAll.done _ (by simp; omega))

theorem parser_parentheses_transparent_witness :
    parser ["+", "1", "2"] = Outcome.ok [Node.BinaryExpression "+"
        (Node.Literal (Value.number 1)) (Node.Literal (Value.number 2))] ∧
      parser (["("] ++ ["+", "1", "2"] ++ [")"]) = Outcome.ok [Node.BinaryExpression "+"
        (Node.Literal (Value.number 1)) (Node.Literal (Value.number 2))] :=
  ⟨by decide, parser_parentheses_transparent ["+", "1", "2"] (Node.BinaryExpression "+"
    (Node.Literal (Value.number 1)) (Node.Literal (Value.number 2))) (by decide)⟩

/-- C17: when the parser succeeds on `A` and on `B`, it succeeds on `A ++ B` and returns the
forest of `A` followed by the forest of `B`; the empty token list gives the empty forest; and
a successful call of `parseExpression` does not depend on the tokens that follow the
expression it returns. -/
theorem parser_append (A B : List String) (as bs : List Node)
    (hA : parser A = Outcome.ok as) (hB : parser B = Outcome.ok bs) :
    parser (A ++ B) = Outcome.ok (as ++ bs) ∧ parser [] = Outcome.ok [] ∧
      ∀ (c : Nat) (n : Node) (c2 : Nat),
        parseExpression A (A.length + 1) c = Outcome.ok (n, c2) →
        ∀ post : List String,
          parseExpression (A.take c2 ++ post) ((A.take c2 ++ post).length + 1) c =
            Outcome.ok (n, c2) := by
  refine ⟨?_, by decide, ?_⟩
  · rw [parser_ok_iff] at hA hB ⊢
    exact hA.append (Nat.zero_le _) B bs hB
  · intro c n c2 h post
    have hp := (parses_of_parseExpression _ _ _ _ _ h).replace_rest post
    exact parseExpression_of_parses hp _ (by omega)

theorem parser_append_witness :
    parser ["let", "x", "=", "1"] =
        Outcome.ok [Node.Assignment "x" (Node.Literal (Value.number 1))] ∧
      parser ["print", "x"] = Outcome.ok [Node.Print (Node.Variable "x")] ∧
      parser (["let", "x", "=", "1"] ++ ["print", "x"]) =
        Outcome.ok ([Node.Assignment "x" (Node.Literal (Value.number 1))] ++
          [Node.Print (Node.Variable "x")]) :=
  ⟨by decide, by decide,
    (parser_append ["let", "x", "=", "1"] ["print", "x"]
      [Node.Assignment "x" (Node.Literal (Value.number 1))] [Node.Print (Node.Variable "x")]
      (by decide) (by decide)).1⟩

/-- C18: on every token list the parser ends by itself, with a forest or with an error; every
successful call of `parseExpression` advances the cursor by at least one token and leaves it
at most at `tokens.length`; so a returned forest has at most as many top-level nodes as there
are tokens. -/
theorem parser_terminates_with_progress (tokens : List String) :
    parser tokens ≠ Outcome.beyond ∧
      (∀ (fuel c : Nat) (n : Node) (c2 : Nat),
        parseExpression tokens fuel c = Outcome.ok (n, c2) → c < c2 ∧ c2 ≤ tokens.length) ∧
      (∀ ns : List Node, parser tokens = Outcome.ok ns → ns.length ≤ tokens.length) := by
  refine ⟨parseLoop_ne_beyond _ _ _ (by omega) (by omega), ?_, ?_⟩
  · intro fuel c n c2 h
    exact (parses_of_parseExpression _ _ _ _ _ h).bounds
  · intro ns h
    rw [parser_ok_iff] at h
    have := h.cursor_le (Nat.zero_le _)
    omega

theorem parseLoop_semicolon {A : List String} {c : Nat} {ns : List Node}
    (h : ParsesAll A c ns) (hc : c ≤ A.length) (B : List String) :
    ∀ fuel, 0 < fuel → (A ++ ";" :: B).length + 1 ≤ fuel + c →
      parseLoop (A ++ ";" :: B) fuel c =
        Outcome.error (ParseError.unexpectedToken ";") := by
  induction h with
  | done c h0 =>
    intro fuel hf0 hf
    have e : c = A.length := by omega
    subst e
    obtain ⟨m, rfl⟩ : ∃ m, fuel = m + 1 := ⟨fuel - 1, by omega⟩
    have ht : (A ++ ";" :: B)[A.length]? = some ";" := getElem?_after A ";" B
    have h1 : isQuoted ";" = false := by decide
    have h2 : ¬ (";" = "let") := by decide
    have h3 : ¬ (";" = "print") := by decide
    have h4 : hasDigit ";" = false := by decide
    have h5 : hasIdentStart ";" = false := by decide
    have h6 : ¬ (";" = "(") := by decide
    have h7 : isOperator ";" = false := by decide
    rw [parseLoop, if_pos (by simp), parseExpression]
    simp only [ht, h1, h2, h3, h4, h5, h6, h7, Bool.false_eq_true, if_false, Outcome.bind]
  | more c node c2 rest h0 hp _ ih =>
    intro fuel hf0 hf
    have hb := hp.bounds
    have hs := hp.shift [] (";" :: B)
    simp only [List.nil_append, List.length_nil, Nat.zero_add] at hs
    simp only [List.length_append, List.length_cons] at hf
    obtain ⟨m, rfl⟩ : ∃ m, fuel = m + 1 := ⟨fuel - 1, by omega⟩
    rw [parseLoop, if_pos (by simp; omega), parseExpression_of_parses hs _ (by omega)]
    simp only [Outcome.bind]
    rw [ih hb.2 m (by omega) (by simp; omega)]

/-- C19: when the parser succeeds on `A`, it throws `Unexpected token: ;` on `A`, a semicolon
and any further tokens `B`: a semicolon cannot separate statements. -/
theorem parser_semicolon_rejected (A B : List String) (as : List Node)
    (hA : parser A = Outcome.ok as) :
    parser (A ++ [";"] ++ B) = Outcome.error (ParseError.unexpectedToken ";") := by
  rw [parser_ok_iff] at hA
  have e : A ++ [";"] ++ B = A ++ ";" :: B := by simp
  rw [e]
  exact parseLoop_semicolon hA (Nat.zero_le _) B _ (by omega) (by omega)

theorem parser_semicolon_rejected_witness :
    parser ["let", "x", "=", "5"] =
        Outcome.ok [Node.Assignment "x" (Node.Literal (Value.number 5))] ∧
      lexer "let x = 5 ; print x" = ["let", "x", "=", "5"] ++ [";"] ++ ["print", "x"] ∧
      parser (["let", "x", "=", "5"] ++ [";"] ++ ["print", "x"]) =
        Outcome.error (ParseError.unexpectedToken ";") :=
  ⟨by decide, by decide,
    parser_semicolon_rejected ["let", "x", "=", "5"] ["print", "x"]
      [Node.Assignment "x" (Node.Literal (Value.number 5))] (by decide)⟩

/-! ## Parser output and the defensive errors -/

theorem Parses.wellFormed {tokens : List String} {c : Nat} {n : Node} {c2 : Nat}
    (h : Parses tokens c n c2) : isWellFormed n = true := by
  induction h with
  | quoted c token _ _ => rfl
  | assignment c name value c2 _ _ _ _ ih => simpa [isWellFormed] using ih
  | print c value c2 _ _ ih => simpa [isWellFormed] using ih
  | number c token _ _ _ _ _ => rfl
  | ident c token _ _ _ _ _ _ => rfl
  | group c inner c1 _ _ _ ih => exact ih
  | binary c operator left c1 right c2 _ ho _ _ ih1 ih2 => simp [isWellFormed, ho, ih1, ih2]

theorem ParsesAll.wellFormed_all {tokens : List String} {c : Nat} {ns : List Node}
    (h : ParsesAll tokens c ns) : ∀ n ∈ ns, isWellFormed n = true := by
  induction h with
  | done c _ => intro n hn; simp at hn
  | more c node c2 rest _ hp _ ih =>
    intro n hn
    rw [List.mem_cons] at hn
    rcases hn with hn | hn
    · rw [hn]; exact hp.wellFormed
    · exact ih n hn

theorem applyOperator_ok {op : String} (h : isOperator op = true) (a b : Value) :
    ∃ v, applyOperator op a b = Outcome.ok v := by
  simp only [isOperator, Bool.or_eq_true, beq_iff_eq] at h
  rcases h with ((h | h) | h) | h <;> subst h
  · exact ⟨jsAdd a b, rfl⟩
  · exact ⟨jsSub a b, rfl⟩
  · exact ⟨jsMul a b, rfl⟩
  · exact ⟨jsDiv a b, rfl⟩

/-- Evaluating a well-formed tree never ends with one of the defensive errors. -/
theorem evaluate_no_defensive_error (n : Node) (hw : isWellFormed n = true) :
    ∀ self : Interpreter, isDefensiveError (self.evaluate n).result = false := by
  induction n with
  | Literal v => intro self; rfl
  | Variable name =>
    intro self
    simp only [Interpreter.evaluate]
    split_ifs <;> rfl
  | Assignment name value ih =>
    intro self
    simp only [isWellFormed] at hw
    have h1 := ih hw self
    simp only [Interpreter.evaluate]
    cases hr : (self.evaluate value).result with
    | ok v =>
      simp only
      cases (self.evaluate value).interpreter.environment.set name v <;> rfl
    | error e => simp only; rw [hr] at h1 ⊢; exact h1
    | beyond => simp only; rw [hr]; rfl
  | Print value ih =>
    intro self
    simp only [isWellFormed] at hw
    have h1 := ih hw self
    simp only [Interpreter.evaluate]
    cases hr : (self.evaluate value).result with
    | ok v => rfl
    | error e => simp only; rw [hr] at h1 ⊢; exact h1
    | beyond => simp only; rw [hr]; rfl
  | BinaryExpression op l r ihl ihr =>
    intro self
    simp only [isWellFormed, Bool.and_eq_true] at hw
    obtain ⟨⟨ho, hl⟩, hr⟩ := hw
    have h1 := ihl hl self
    simp only [Interpreter.evaluate]
    cases hlr : (self.evaluate l).result with
    | ok lv =>
      simp only
      have h2 := ihr hr (self.evaluate l).interpreter
      cases hrr : ((self.evaluate l).interpreter.evaluate r).result with
      | ok rv =>
        simp only
        obtain ⟨v, hv⟩ := applyOperator_ok ho lv rv
        rw [hv]; rfl
      | error e => simp only; rw [hrr] at h2; exact h2
      | beyond => rfl
    | error e => simp only; rw [hlr] at h1 ⊢; exact h1
    | beyond => simp only; rw [hlr]; rfl
  | Other ty => simp [isWellFormed] at hw

theorem run_no_defensive_error (ns : List Node) (hw : ∀ n ∈ ns, isWellFormed n = true) :
    ∀ self : Interpreter, isDefensiveError (self.run ns).result = false := by
  induction ns with
  | nil => intro self; rfl
  | cons a rest ih =>
    intro self
    have ha := evaluate_no_defensive_error a (hw a (List.mem_cons_self _ _)) self
    have hrest := ih (fun n hn => hw n (List.mem_cons_of_mem _ hn)) (self.evaluate a).interpreter
    simp only [Interpreter.run]
    cases hr : (self.evaluate a).result with
    | ok v => simp only; exact hrest
    | error e => simp only; rw [hr] at ha ⊢; exact ha
    | beyond => simp only; rw [hr]; rfl

/-- C14: every node anywhere in a forest the parser returns has one of the five known types
and every binary node has an operator among `+ - * /`; hence neither `evaluate` on a node of
the forest nor `run` on the forest, from any interpreter state, ends with `Unknown operator`
or `Unknown AST node type`. -/
theorem parser_output_well_formed (tokens : List String) (ns : List Node)
    (h : parser tokens = Outcome.ok ns) :
    (∀ n ∈ ns, isWellFormed n = true) ∧
      (∀ (self : Interpreter), ∀ n ∈ ns, isDefensiveError (self.evaluate n).result = false) ∧
      (∀ self : Interpreter, isDefensiveError (self.run ns).result = false) := by
  rw [parser_ok_iff] at h
  have hw := h.wellFormed_all
  exact ⟨hw, fun self n hn => evaluate_no_defensive_error n (hw n hn) self,
    fun self => run_no_defensive_error ns hw self⟩

theorem parser_output_well_formed_witness :
    parser ["print", "/", "x", "2"] = Outcome.ok [Node.Print (Node.BinaryExpression "/"
        (Node.Variable "x") (Node.Literal (Value.number 2)))] ∧
      isDefensiveError (Interpreter.new.run [Node.Print (Node.BinaryExpression "/"
        (Node.Variable "x") (Node.Literal (Value.number 2)))]).result = false :=
  ⟨by decide,
    (parser_output_well_formed ["print", "/", "x", "2"] [Node.Print (Node.BinaryExpression "/"
      (Node.Variable "x") (Node.Literal (Value.number 2)))] (by decide)).2.2 Interpreter.new⟩

/-! ## Evaluator: order of effects -/

/-- When the statements of `pre` succeed and the next statement throws, `run` ends with that
error whatever follows. -/
theorem run_fails_at (pre : List Node) (n : Node) (e : RuntimeError) :
    ∀ (self : Interpreter) (v : Value), (self.run pre).result = Outcome.ok v →
      ((self.run pre).interpreter.evaluate n).result = Outcome.error e →
      ∀ post : List Node, self.run (pre ++ n :: post) =
        { result := Outcome.error e,
          interpreter := ((self.run pre).interpreter.evaluate n).interpreter,
          output := (self.run pre).output ++ ((self.run pre).interpreter.evaluate n).output } := by
  induction pre with
  | nil =>
    intro self v _ hn post
    simp only [Interpreter.run] at hn
    simp only [List.nil_append, Interpreter.run, hn, List.nil_append]
    cases hs : self.evaluate n with
    | mk result interpreter output =>
      rw [hs] at hn
      simp only at hn
      rw [hn]
  | cons a pre ih =>
    intro self v hpre hn post
    simp only [Interpreter.run] at hpre hn
    simp only [List.cons_append, Interpreter.run]
    cases ha : (self.evaluate a).result with
    | ok w =>
      rw [ha] at hpre hn
      simp only at hpre hn ⊢
      have hi := ih (self.evaluate a).interpreter v hpre hn post
      rw [show pre.append (n :: post) = pre ++ n :: post from rfl, hi]
      simp only [List.append_assoc]
    | error e2 => rw [ha] at hpre; simp only at hpre; rw [ha] at hpre; exact Outcome.noConfusion hpre
    | beyond => rw [ha] at hpre; simp only at hpre; rw [ha] at hpre; exact Outcome.noConfusion hpre

/-- C12: when the statements before index `k` run successfully and statement `k` then throws,
`run` on the whole forest ends with that error; the output is the output of the statements
before `k` followed by what statement `k` printed; the interpreter is left as statement `k`
left it, with every binding made so far; and the statements after `k` play no part. -/
theorem run_aborts_at_first_failure (self : Interpreter) (ns : List Node) (k : Nat) (n : Node)
    (e : RuntimeError) (hk : ns[k]? = some n)
    (hpre : (self.run (ns.take k)).result = Outcome.ok Value.undefined)
    (hfail : ((self.run (ns.take k)).interpreter.evaluate n).result = Outcome.error e) :
    self.run ns =
        { result := Outcome.error e,
          interpreter := ((self.run (ns.take k)).interpreter.evaluate n).interpreter,
          output := (self.run (ns.take k)).output ++
            ((self.run (ns.take k)).interpreter.evaluate n).output } ∧
      ∀ rest : List Node, self.run (ns.take k ++ n :: rest) = self.run ns := by
  have hlt : k < ns.length := by
    by_contra hc
    rw [List.getElem?_eq_none (by omega)] at hk
    exact Option.noConfusion hk
  have hn : ns[k] = n := by
    rw [List.getElem?_eq_getElem hlt] at hk
    exact Option.some.inj hk
  have e1 : ns = ns.take k ++ n :: ns.drop (k + 1) := by
    rw [← hn, ← List.drop_eq_getElem_cons hlt, List.take_append_drop]
  have h1 := run_fails_at (ns.take k) n e self Value.undefined hpre hfail
  have h2 := h1 (ns.drop (k + 1))
  rw [← e1] at h2
  exact ⟨h2, fun rest => by rw [h1 rest, h2]⟩

theorem run_aborts_at_first_failure_witness :
    [Node.Print (Node.Literal (Value.number 1)), Node.Print (Node.Variable "y"),
        Node.Print (Node.Literal (Value.number 2))][1]? = some (Node.Print (Node.Variable "y")) ∧
      Interpreter.new.run [Node.Print (Node.Literal (Value.number 1)),
        Node.Print (Node.Variable "y"), Node.Print (Node.Literal (Value.number 2))] =
        { result := Outcome.error (RuntimeError.notDefined "y"), interpreter := Interpreter.new,
          output := [Value.number 1] } :=
  ⟨by decide,
    (run_aborts_at_first_failure Interpreter.new [Node.Print (Node.Literal (Value.number 1)),
      Node.Print (Node.Variable "y"), Node.Print (Node.Literal (Value.number 2))] 1
      (Node.Print (Node.Variable "y")) (RuntimeError.notDefined "y") (by decide) (by decide)
      (by decide)).1⟩

/-- C13: for a binary node with an operator among `+ - * /`, `evaluate` evaluates the left
operand in the given state and then the right operand in the state the left one leaves.  When
both succeed the operator is applied to their values and the output is the left output
followed by the right output; when the right operand does not succeed the node ends as the
right operand did, after the same output; when the left operand does not succeed the node
ends as the left operand did, whatever the right operand is. -/
theorem evaluate_binary_left_then_right (self : Interpreter) (op : String) (l r : Node)
    (hop : isOperator op = true) :
    (∀ lv rv, (self.evaluate l).result = Outcome.ok lv →
        ((self.evaluate l).interpreter.evaluate r).result = Outcome.ok rv →
        (∃ v, applyOperator op lv rv = Outcome.ok v) ∧
        self.evaluate (Node.BinaryExpression op l r) =
          { result := applyOperator op lv rv,
            interpreter := ((self.evaluate l).interpreter.evaluate r).interpreter,
            output := (self.evaluate l).output ++
              ((self.evaluate l).interpreter.evaluate r).output }) ∧
      (∀ lv, (self.evaluate l).result = Outcome.ok lv →
        (∀ rv, ((self.evaluate l).interpreter.evaluate r).result ≠ Outcome.ok rv) →
        self.evaluate (Node.BinaryExpression op l r) =
          { result := ((self.evaluate l).interpreter.evaluate r).result,
            interpreter := ((self.evaluate l).interpreter.evaluate r).interpreter,
            output := (self.evaluate l).output ++
              ((self.evaluate l).interpreter.evaluate r).output }) ∧
      ((∀ lv, (self.evaluate l).result ≠ Outcome.ok lv) →
        ∀ r2 : Node, self.evaluate (Node.BinaryExpression op l r2) = self.evaluate l) := by
  refine ⟨?_, ?_, ?_⟩
  · intro lv rv hl hr
    refine ⟨applyOperator_ok hop lv rv, ?_⟩
    simp only [Interpreter.evaluate, hl, hr]
  · intro lv hl hr
    cases hrr : ((self.evaluate l).interpreter.evaluate r).result with
    | ok rv => exact absurd hrr (hr rv)
    | error e => simp only [Interpreter.evaluate, hl, hrr]
    | beyond => simp only [Interpreter.evaluate, hl, hrr]
  · intro hl r2
    cases hlr : (self.evaluate l).result with
    | ok lv => exact absurd hlr (hl lv)
    | error e => simp only [Interpreter.evaluate, hlr]
    | beyond => simp only [Interpreter.evaluate, hlr]

theorem evaluate_binary_left_then_right_witness :
    isOperator "+" = true ∧
      Interpreter.new.evaluate (Node.BinaryExpression "+"
        (Node.Assignment "x" (Node.Literal (Value.number 1))) (Node.Variable "x")) =
        { result := Outcome.ok (Value.number 2),
          interpreter := { environment := [("x", Value.number 1)] }, output := [] } ∧
      Interpreter.new.evaluate (Node.BinaryExpression "+" (Node.Variable "x")
        (Node.Assignment "x" (Node.Literal (Value.number 1)))) =
        { result := Outcome.error (RuntimeError.notDefined "x"), interpreter := Interpreter.new,
          output := [] } ∧
      Interpreter.new.evaluate (Node.BinaryExpression "+" (Node.Variable "x")
        (Node.Assignment "x" (Node.Literal (Value.number 1)))) =
        Interpreter.new.evaluate (Node.Variable "x") :=
  ⟨by decide, by decide, by decide,
    (evaluate_binary_left_then_right Interpreter.new "+" (Node.Variable "x")
      (Node.Literal (Value.number 0)) (by decide)).2.2 (by intro lv h; cases h)
      (Node.Assignment "x" (Node.Literal (Value.number 1)))⟩

/-- C16: a fresh interpreter starts with the empty environment, and `evaluate` of a node
whose tree contains no `Assignment` leaves the interpreter, hence the environment, exactly as
it was, whether it returns or throws. -/
theorem evaluate_without_assignment_keeps_environment (self : Interpreter) (n : Node)
    (h : hasAssignment n = false) :
    Interpreter.new.environment = [] ∧ (self.evaluate n).interpreter = self ∧
      (self.evaluate n).interpreter.environment = self.environment := by
  have key : ∀ (n : Node), hasAssignment n = false →
      ∀ self : Interpreter, (self.evaluate n).interpreter = self := by
    intro n
    induction n with
    | Literal v => intro _ self; rfl
    | Variable name =>
      intro _ self
      simp only [Interpreter.evaluate]
      split_ifs <;> rfl
    | Assignment name value _ => intro h; simp [hasAssignment] at h
    | Print value ih =>
      intro h self
      simp only [hasAssignment] at h
      have h1 := ih h self
      simp only [Interpreter.evaluate]
      cases hr : (self.evaluate value).result <;> exact h1
    | BinaryExpression op l r ihl ihr =>
      intro h self
      simp only [hasAssignment, Bool.or_eq_false_iff] at h
      have h1 := ihl h.1 self
      have h2 := ihr h.2 (self.evaluate l).interpreter
      simp only [Interpreter.evaluate]
      cases hlr : (self.evaluate l).result with
      | ok lv =>
        simp only
        cases hrr : ((self.evaluate l).interpreter.evaluate r).result <;>
          simp only <;> rw [h2, h1]
      | error e => exact h1
      | beyond => exact h1
    | Other ty => intro _ self; rfl
  have hk := key n h self
  exact ⟨rfl, hk, by rw [hk]⟩

theorem evaluate_without_assignment_keeps_environment_witness :
    hasAssignment (Node.Print (Node.BinaryExpression "+" (Node.Variable "x")
        (Node.Variable "y"))) = false ∧
      (({ environment := [("x", Value.number 1)] } : Interpreter).evaluate
        (Node.Print (Node.BinaryExpression "+" (Node.Variable "x")
          (Node.Variable "y")))).interpreter = { environment := [("x", Value.number 1)] } :=
  ⟨by decide,
    (evaluate_without_assignment_keeps_environment { environment := [("x", Value.number 1)] }
      (Node.Print (Node.BinaryExpression "+" (Node.Variable "x") (Node.Variable "y")))
      (by decide)).2.1⟩

/-! ## Lexer: shapes of tokens and keywords -/

theorem matchGroup_cases {s : List Char} {r : List Char × List Char}
    (h : matchGroup s = some r) :
    matchDigits s = some r ∨ matchKeyword "let".toList s = some r ∨
      matchKeyword "print".toList s = some r ∨ matchQuoted s = some r ∨
      matchSymbols s = some r := by
  unfold matchGroup at h
  cases h1 : matchDigits s with
  | some r1 => rw [h1] at h; exact Or.inl h
  | none =>
    rw [h1] at h
    simp only [Option.orElse] at h
    cases h2 : matchKeyword "let".toList s with
    | some r2 => rw [h2] at h; exact Or.inr (Or.inl h)
    | none =>
      rw [h2] at h
      simp only at h
      cases h3 : matchKeyword "print".toList s with
      | some r3 => rw [h3] at h; exact Or.inr (Or.inr (Or.inl h))
      | none =>
        rw [h3] at h
        simp only at h
        cases h4 : matchQuoted s with
        | some r4 => rw [h4] at h; exact Or.inr (Or.inr (Or.inr (Or.inl h)))
        | none =>
          rw [h4] at h
          exact Or.inr (Or.inr (Or.inr (Or.inr h)))

theorem run_shape {p : Char → Bool} {s tok rest : List Char}
    (h : (if (s.takeWhile p).isEmpty then none
      else some (s.takeWhile p, s.dropWhile p)) = some (tok, rest)) :
    tok.isEmpty = false ∧ tok.all p = true := by
  by_cases he : (s.takeWhile p).isEmpty = true
  · rw [if_pos he] at h; exact Option.noConfusion h
  · rw [if_neg he] at h
    simp only [Option.some.injEq, Prod.mk.injEq] at h
    rw [← h.1]
    refine ⟨by simpa using he, ?_⟩
    rw [List.all_eq_true]
    intro c hc
    exact List.mem_takeWhile_imp hc

theorem no_space_of_all {p : Char → Bool} (hp : ∀ c, p c = true → isSpace c = false)
    {tok : List Char} (h : tok.all p = true) : tok.any isSpace = false := by
  rw [← Bool.not_eq_true, List.any_eq_true]
  rintro ⟨c, hc, hs⟩
  rw [List.all_eq_true] at h
  rw [hp c (h c hc)] at hs
  exact Bool.noConfusion hs

/-- What the capture group matches has one of the five token shapes, and has no white space
in it unless it is a quoted string. -/
theorem matchGroup_shape {s tok rest : List Char} (h : matchGroup s = some (tok, rest)) :
    tok ≠ [] ∧ isTokenShape (String.mk tok) = true ∧
      (isQuotedString (String.mk tok) = false → hasSpace (String.mk tok) = false) := by
  rcases matchGroup_cases h with h1 | h1 | h1 | h1 | h1
  · obtain ⟨h2, h3⟩ := run_shape h1
    have hd : isDigitRun (String.mk tok) = true := by simp [isDigitRun, h2, h3]
    refine ⟨by intro e; rw [e] at h2; exact Bool.noConfusion h2, by simp [isTokenShape, hd], ?_⟩
    intro _
    exact no_space_of_all (fun c hc => isSpace_of_isSymbol (isSymbol_of_isDigit hc)) h3
  · unfold matchKeyword at h1
    split_ifs at h1
    simp only [Option.some.injEq, Prod.mk.injEq] at h1
    rw [← h1.1]
    exact ⟨by decide, by decide, fun _ => by decide⟩
  · unfold matchKeyword at h1
    split_ifs at h1
    simp only [Option.some.injEq, Prod.mk.injEq] at h1
    rw [← h1.1]
    exact ⟨by decide, by decide, fun _ => by decide⟩
  · unfold matchQuoted at h1
    split at h1
    · rename_i r
      split at h1
      · simp only [Option.some.injEq, Prod.mk.injEq] at h1
        rw [← h1.1]
        have hq : isQuotedString (String.mk ('"' :: (r.takeWhile (fun c => c != '"') ++ ['"']))) =
            true := by
          have hall : (r.takeWhile (fun c => c != '"')).all (fun c => c != '"') = true := by
            rw [List.all_eq_true]
            intro c hc
            have h5 := List.mem_takeWhile_imp hc
            exact h5
          simp only [isQuotedString, isQuoted, sliceInner, String.toList, List.head?_cons,
            List.drop_succ_cons, List.drop_zero, List.dropLast_concat, hall, Bool.and_eq_true,
            beq_self_eq_true, decide_eq_true_eq, List.length_cons, List.length_append,
            List.length_singleton, and_true, true_and]
          refine ⟨?_, by omega⟩
          rw [show '"' :: (r.takeWhile (fun c => c != '"') ++ ['"']) =
            ('"' :: r.takeWhile (fun c => c != '"')) ++ ['"'] from rfl, List.getLast?_concat]
          rfl
        refine ⟨by simp, by simp [isTokenShape, hq], ?_⟩
        intro hn
        rw [hq] at hn
        exact Bool.noConfusion hn
      · exact Option.noConfusion h1
    · exact Option.noConfusion h1
  · obtain ⟨h2, h3⟩ := run_shape h1
    have hd : isSymbolRun (String.mk tok) = true := by simp [isSymbolRun, h2, h3]
    refine ⟨by intro e; rw [e] at h2; exact Bool.noConfusion h2, by simp [isTokenShape, hd], ?_⟩
    intro _
    exact no_space_of_all (fun c hc => isSpace_of_isSymbol hc) h3

theorem lexFrom_shape (fuel : Nat) : ∀ (s : List Char), ∀ t ∈ lexFrom fuel s,
    t.toList ≠ [] ∧ isTokenShape t = true ∧ (isQuotedString t = false → hasSpace t = false) := by
  induction fuel with
  | zero => intro s t ht; simp [lexFrom] at ht
  | succ fuel ih =>
    intro s t ht
    rw [lexFrom] at ht
    cases hm : matchAt s with
    | some r =>
      obtain ⟨tok, rest⟩ := r
      rw [hm] at ht
      simp only [List.mem_cons] at ht
      rcases ht with ht | ht
      · rw [ht]
        exact matchGroup_shape hm
      · exact ih rest t ht
    | none =>
      rw [hm] at ht
      simp only at ht
      split_ifs at ht
      · simp at ht
      · exact ih _ t ht

/-- C15: the lexer returns a token list for every input, and more attempts than the input
has characters never change it; every token is non-empty and is a run of digits, `let`,
`print`, a quoted string without a double quote inside, or a run of the characters
`+ - * / ( ) = ;` and word characters; and only a quoted string can contain white space. -/
theorem lexer_total_with_known_shapes (input : String) :
    (∀ fuel, input.length < fuel → lexFrom fuel input.toList = lexer input) ∧
      ∀ t ∈ lexer input, t.toList ≠ [] ∧ isTokenShape t = true ∧
        (isQuotedString t = false → hasSpace t = false) :=
  ⟨fun fuel hf => lexFrom_fuel fuel input.toList (input.length + 1) hf (Nat.lt_succ_self _),
    lexFrom_shape _ _⟩

/-- C20: the lexer takes `let` and `print` at the start of any text as a token of their own
and goes on with what follows, whether or not a word character follows the keyword. -/
theorem lexer_keyword_without_boundary (s : String) :
    lexer ("let" ++ s) = ["let"] ++ lexer s ∧ lexer ("print" ++ s) = ["print"] ++ lexer s := by
  have h1 := matchAt_let [] s.toList (by simp)
  have h2 := matchAt_print [] s.toList (by simp)
  simp only [List.nil_append] at h1 h2
  constructor
  · have e : ("let" ++ s).toList = 'l' :: 'e' :: 't' :: s.toList := rfl
    have el : ("let" ++ s).length = s.toList.length + 3 := by
      show ("let" ++ s).toList.length = _
      rw [e]; simp
    unfold lexer
    rw [e, el, lexFrom_of_matchAt h1]
    rw [lexFrom_fuel (s.toList.length + 3) s.toList (s.length + 1) (by omega)
      (Nat.lt_succ_self _)]
    rfl
  · have e : ("print" ++ s).toList = 'p' :: 'r' :: 'i' :: 'n' :: 't' :: s.toList := rfl
    have el : ("print" ++ s).length = s.toList.length + 5 := by
      show ("print" ++ s).toList.length = _
      rw [e]; simp
    unfold lexer
    rw [e, el, lexFrom_of_matchAt h2]
    rw [lexFrom_fuel (s.toList.length + 5) s.toList (s.length + 1) (by omega)
      (Nat.lt_succ_self _)]
    rfl

theorem lexer_keyword_without_boundary_witness :
    lexer "letter" = ["let", "ter"] ∧ lexer "printer" = ["print", "er"] ∧
      lexer ("let" ++ "ter") = ["let"] ++ lexer "ter" ∧
      lexer ("print" ++ "er") = ["print"] ++ lexer "er" :=
  ⟨by decide, by decide, (lexer_keyword_without_boundary "ter").1,
    (lexer_keyword_without_boundary "er").2⟩

theorem parser_terminates_with_progress_witness :
    parser ["print"] ≠ Outcome.beyond ∧
      parser ["print"] = Outcome.error ParseError.undefinedToken ∧
      ∀ ns : List Node, parser ["(", "x", ")", "y"] = Outcome.ok ns →
        ns.length ≤ ["(", "x", ")", "y"].length :=
  ⟨(parser_terminates_with_progress ["print"]).1, by decide,
    (parser_terminates_with_progress ["(", "x", ")", "y"]).2.2⟩

theorem lexer_total_with_known_shapes_witness :
    lexer "let s = \"a b\" 12" = ["let", "s", "=", "\"a b\"", "12"] ∧
      isTokenShape "\"a b\"" = true ∧ isTokenShape "12" = true ∧
      (isQuotedString "12" = false → hasSpace "12" = false) :=
  ⟨by decide,
    ((lexer_total_with_known_shapes "let s = \"a b\" 12").2 "\"a b\"" (by decide)).2.1,
    ((lexer_total_with_known_shapes "let s = \"a b\" 12").2 "12" (by decide)).2.1,
    ((lexer_total_with_known_shapes "let s = \"a b\" 12").2 "12" (by decide)).2.2⟩

end EqualScript
